import Mathlib

/-!
Verification of the arithmetic-circuit graph optimizer of circom-scotia
(`src/cxx.rs`): the `Operation`/`Node`/`Graph` data model, the evaluator,
and the four optimization passes (`tree_shake`, `propagate`,
`value_numbering`, `constants`) composed by `optimize`.

Modelling conventions:
* `U256` field values are modelled as `Nat`; the only place 256-bit
  truncation matters is the left shift, where `% 2 ^ 256` is applied
  explicitly.
* Fallible operations (Rust panics, `debug_assert!` contract checks,
  out-of-range indexing, `unimplemented!`, `%` by zero) are modelled with
  `Option`: `none` is a fatal failure.  Runtime assertions are taken to be
  active (debug-build semantics), so `modulus - b` fails when `b > modulus`
  and the shift-amount check `b < 256` fails hard.
* The two randomized passes draw samples from `rand::thread_rng()`; the
  memoization maps (`inputs.entry(i)`, `prfs.entry((op, va, vb))`) are
  modelled by an explicit `Tape` of functions from the memoization key to
  the drawn raw sample, which is then reduced `% modulus` exactly as
  `rng.gen::<U256>() % self.modulus` is.  Quantifying over all tapes
  quantifies over all possible outcomes of the random draws.
* The `r1cs` field of `Graph` is not touched by any of the operations
  considered here and is omitted from the structure.
-/

namespace CircomScotia

/-- The binary operators of `cxx.rs` (`enum Operation`). -/
inductive Operation where
  | Mul
  | MMul
  | Add
  | Sub
  | Eq
  | Neq
  | Lt
  | Gt
  | Leq
  | Geq
  | Lor
  | Shl
  | Shr
  | Band
deriving DecidableEq, Repr

/-- `ruint`'s `add_mod`: `(a + b) % m`, and `0` when the modulus is zero. -/
def addMod (a b m : Nat) : Nat :=
  if m = 0 then 0 else (a + b) % m

/-- `ruint`'s `mul_mod`: `(a * b) % m`, and `0` when the modulus is zero. -/
def mulMod (a b m : Nat) : Nat :=
  if m = 0 then 0 else (a * b) % m

/-- `U256` subtraction `a - b`; fails (debug overflow panic) when `b > a`. -/
def usub (a b : Nat) : Option Nat :=
  if b ≤ a then some (a - b) else none

/-- `compute_shl_uint`: `debug_assert!(b < 256)`, then shift `a` left by the
low limb of `b` (`b % 2^64`), truncated to 256 bits. -/
def compute_shl_uint (a b : Nat) : Option Nat :=
  if b < 256 then some ((a <<< (b % 2 ^ 64)) % 2 ^ 256) else none

/-- `compute_shr_uint`: `debug_assert!(b < 256)`, then shift `a` right by the
low limb of `b`. -/
def compute_shr_uint (a b : Nat) : Option Nat :=
  if b < 256 then some (a >>> (b % 2 ^ 64)) else none

/-- `Operation::eval` from `cxx.rs`.  `none` models the panics: the
`unimplemented!` arm reached by `MMul`, the shift-amount contract checks,
and the `modulus - b` overflow in the `Sub` arm. -/
def Operation.eval (op : Operation) (a b modulus : Nat) : Option Nat :=
  match op with
  | .Add => some (addMod a b modulus)
  | .Sub =>
    match usub modulus b with
    | some d => some (addMod a d modulus)
    | none => none
  | .Mul => some (mulMod a b modulus)
  | .Eq => some (if a = b then 1 else 0)
  | .Neq => some (if a = b then 0 else 1)
  | .Lt => some (if a < b then 1 else 0)
  | .Gt => some (if b < a then 1 else 0)
  | .Leq => some (if a ≤ b then 1 else 0)
  | .Geq => some (if b ≤ a then 1 else 0)
  | .Lor => some (if a ≠ 0 ∨ b ≠ 0 then 1 else 0)
  | .Shl => compute_shl_uint a b
  | .Shr => compute_shr_uint a b
  | .Band => some (a &&& b)
  | .MMul => none

/-- `enum Node` from `cxx.rs`. -/
inductive Node where
  | Input (i : Nat)
  | Constant (c : Nat)
  | Op (op : Operation) (a b : Nat)
deriving DecidableEq, Repr

/-- `struct Graph` from `cxx.rs` (the untouched `r1cs` field omitted). -/
structure Graph where
  nodes : List Node
  inputs : List Nat
  modulus : Nat
deriving DecidableEq, Repr

/-- The random draws consumed by `random_eval`, keyed the way its two
memoization maps are keyed: one raw `U256` sample per distinct input index
and one per distinct `(op, left value, right value)` triple. -/
structure Tape where
  inputTape : Nat → Nat
  prfTape : Operation × Nat × Nat → Nat

/-- The back-reference check of `Graph::is_valid`, running over the nodes
with `k` the position of the head node. -/
def validFrom : Nat → List Node → Bool
  | _, [] => true
  | k, nd :: rest =>
    (match nd with
     | .Op _ a b => decide (a < k) && decide (b < k)
     | _ => true) && validFrom (k + 1) rest

/-- `Graph::is_valid`: every `Op` node references strictly earlier nodes. -/
def Graph.is_valid (g : Graph) : Bool :=
  validFrom 0 g.nodes

/-- One step of `Graph::evaluate`: the value of a node given the values
`vs` of all earlier nodes (absolute indexing). -/
def nodeValue (m : Nat) (inputs : List Nat) (vs : List Nat) : Node → Option Nat
  | .Constant c => some c
  | .Input i => inputs[i]?
  | .Op op a b =>
    match vs[a]?, vs[b]? with
    | some va, some vb => op.eval va vb m
    | _, _ => none

/-- One step of `Graph::random_eval`: constants are themselves, algebraic
operators (`Add`, `Sub`, `Mul`) are evaluated for real, inputs and all
other operators draw a memoized sample reduced `% modulus` (the `%` fails
when the modulus is zero, as `rng.gen::<U256>() % self.modulus` does). -/
def nodeSample (m : Nat) (t : Tape) (vs : List Nat) : Node → Option Nat
  | .Constant c => some c
  | .Input i => if m = 0 then none else some (t.inputTape i % m)
  | .Op op a b =>
    match vs[a]?, vs[b]? with
    | some va, some vb =>
      match op with
      | .Add | .Sub | .Mul => op.eval va vb m
      | _ => if m = 0 then none else some (t.prfTape (op, va, vb) % m)
    | _, _ => none

/-- The forward pass shared by `evaluate` and `random_eval`: fold over the
node list, appending each node's value to the accumulated value list. -/
def genEvalAux (f : List Nat → Node → Option Nat) :
    List Node → List Nat → Option (List Nat)
  | [], vs => some vs
  | nd :: rest, vs =>
    match f vs nd with
    | some x => genEvalAux f rest (vs ++ [x])
    | none => none

/-- The value list computed by the loop of `Graph::evaluate`. -/
def evalNodes (m : Nat) (inputs : List Nat) (nodes : List Node) :
    Option (List Nat) :=
  genEvalAux (nodeValue m inputs) nodes []

/-- `Graph::evaluate`: assert the back-reference invariant, then one
forward pass computing every node's value. -/
def Graph.evaluate (g : Graph) : Option (List Nat) :=
  if g.is_valid = true then evalNodes g.modulus g.inputs g.nodes else none

/-- `Graph::random_eval` under the tape `t`. -/
def randomEval (g : Graph) (t : Tape) : Option (List Nat) :=
  genEvalAux (nodeSample g.modulus t) g.nodes []

/-- `Option`-valued map over a list (the `collect` of an iterator of
fallible items); `none` as soon as one element fails. -/
def omap (f : α → Option β) : List α → Option (List β)
  | [] => some []
  | x :: xs =>
    match f x, omap f xs with
    | some y, some ys => some (y :: ys)
    | _, _ => none

/-- The initial marking loop of `tree_shake`: `used[i] = true` for every
`i` in `outputs`, failing (index panic) when an output is out of range. -/
def markOutputs (n : Nat) : List Nat → List Bool → Option (List Bool)
  | [], used => some used
  | i :: rest, used =>
    if i < n then markOutputs n rest (used.set i true) else none

/-- One step of the backward liveness pass of `tree_shake` at position
`i`: a live `Op` node marks both its operands live. -/
def markStep (nodes : List Node) (used : List Bool) (i : Nat) : List Bool :=
  if used[i]? = some true then
    match nodes[i]? with
    | some (.Op _ a b) => (used.set a true).set b true
    | _ => used
  else used

/-- The backward liveness pass of `tree_shake`: process positions
`k-1, k-2, ..., 0` in that order. -/
def markLoop (nodes : List Node) : Nat → List Bool → List Bool
  | 0, used => used
  | k + 1, used => markLoop nodes k (markStep nodes used k)

/-- `Vec::retain` keeping the elements marked `true`. -/
def keep : List α → List Bool → List α
  | [], _ => []
  | _, [] => []
  | x :: xs, u :: us => cond u (x :: keep xs us) (keep xs us)

/-- The old-to-new renumbering table of `tree_shake`: a used index maps to
the number of used indices before it, an unused index to `None` (whose
`unwrap` is a panic). -/
def renum (used : List Bool) (i : Nat) : Option Nat :=
  if used[i]? = some true then some ((used.take i).count true) else none

/-- Rewrite one retained node's operand references through `renum`. -/
def renumNode (used : List Bool) : Node → Option Node
  | .Op op a b =>
    match renum used a, renum used b with
    | some a1, some b1 => some (.Op op a1 b1)
    | _, _ => none
  | nd => some nd

/-- `Graph::tree_shake`: assert validity, mark `outputs` live, run the
backward liveness pass, retain the live nodes, and renumber the operand
references of the survivors and the entries of `outputs`. -/
def Graph.tree_shake (g : Graph) (outputs : List Nat) :
    Option (Graph × List Nat) :=
  if g.is_valid = true then
    match markOutputs g.nodes.length outputs
        (List.replicate g.nodes.length false) with
    | none => none
    | some used0 =>
      match omap (renumNode (markLoop g.nodes g.nodes.length used0))
          (keep g.nodes (markLoop g.nodes g.nodes.length used0)),
        omap (renum (markLoop g.nodes g.nodes.length used0)) outputs with
      | some nodes1, some outputs1 => some ({ g with nodes := nodes1 }, outputs1)
      | _, _ => none
  else none

/-- One step of `Graph::propagate` at position `i`: fold an `Op` whose two
operands are (currently) constants, and fold the order-theoretic
tautologies `x op x`. -/
def tautFold (op : Operation) : Option Bool :=
  match op with
  | .Eq | .Leq | .Geq => some true
  | .Neq | .Lt | .Gt => some false
  | _ => none

def propStep (m : Nat) (nodes : List Node) (i : Nat) : Option (List Node) :=
  match nodes[i]? with
  | some (.Op op a b) =>
    match nodes[a]?, nodes[b]? with
    | some na, some nb =>
      match na, nb with
      | .Constant va, .Constant vb =>
        match op.eval va vb m with
        | some v => some (nodes.set i (.Constant v))
        | none => none
      | _, _ =>
        if a = b then
          match tautFold op with
          | some c => some (nodes.set i (.Constant (cond c 1 0)))
          | none => some nodes
        else some nodes
    | _, _ => none
  | _ => some nodes

/-- `for i in 0..len` driving a fallible in-place update of the node list:
`stepLoop f i fuel` runs `f` at positions `i, i+1, ..., i+fuel-1`. -/
def stepLoop (f : List Node → Nat → Option (List Node)) :
    Nat → Nat → List Node → Option (List Node)
  | _, 0, nodes => some nodes
  | i, fl + 1, nodes =>
    match f nodes i with
    | some ns => stepLoop f (i + 1) fl ns
    | none => none

/-- `Graph::propagate`: assert validity, then the constant-folding loop. -/
def Graph.propagate (g : Graph) : Option Graph :=
  if g.is_valid = true then
    match stepLoop (propStep g.modulus) 0 g.nodes.length g.nodes with
    | some ns => some { g with nodes := ns }
    | none => none
  else none

/-- `Graph::value_numbering`: assert validity, evaluate once at random,
map every index to the first index holding the same sample value, and
rewrite all operand references and `outputs` through that table. -/
def Graph.value_numbering (g : Graph) (outputs : List Nat) (t : Tape) :
    Option (Graph × List Nat) :=
  if g.is_valid = true then
    match randomEval g t with
    | none => none
    | some values =>
      match omap (fun nd =>
          match nd with
          | Node.Op op a b =>
            match (values.map (fun v => values.findIdx (fun x => x == v)))[a]?,
              (values.map (fun v => values.findIdx (fun x => x == v)))[b]? with
            | some a1, some b1 => some (Node.Op op a1 b1)
            | _, _ => none
          | nd => some nd) g.nodes,
        omap (fun o =>
          (values.map (fun v => values.findIdx (fun x => x == v)))[o]?) outputs with
      | some nodes1, some outputs1 => some ({ g with nodes := nodes1 }, outputs1)
      | _, _ => none
  else none

/-- One step of `Graph::constants` at position `i`: a non-constant node
whose two random trials agree becomes a constant with the observed value. -/
def constStep (sa sb : List Nat) (nodes : List Node) (i : Nat) :
    Option (List Node) :=
  match nodes[i]? with
  | some (.Constant _) => some nodes
  | some _ =>
    match sa[i]?, sb[i]? with
    | some x, some y =>
      if x = y then some (nodes.set i (.Constant x)) else some nodes
    | _, _ => none
  | none => some nodes

/-- `Graph::constants`: assert validity, run two independent random
evaluations, and constify every non-constant node on which they agree. -/
def Graph.constants (g : Graph) (t1 t2 : Tape) : Option Graph :=
  if g.is_valid = true then
    match randomEval g t1, randomEval g t2 with
    | some sa, some sb =>
      match stepLoop (constStep sa sb) 0 g.nodes.length g.nodes with
      | some ns => some { g with nodes := ns }
      | none => none
    | _, _ => none
  else none

/-- `Graph::optimize`: the fixed pipeline `tree_shake`; `propagate`;
`value_numbering`; `constants`; `tree_shake`, threading the rewritten
`outputs` through. -/
def Graph.optimize (g : Graph) (outputs : List Nat) (t t1 t2 : Tape) :
    Option (Graph × List Nat) :=
  match g.tree_shake outputs with
  | none => none
  | some (g1, o1) =>
    match g1.propagate with
    | none => none
    | some g2 =>
      match g2.value_numbering o1 t with
      | none => none
      | some (g3, o3) =>
        match g3.constants t1 t2 with
        | none => none
        | some g4 => g4.tree_shake o3

/-! ### Generic list lemmas -/

theorem omap_length (f : α → Option β) :
    ∀ (xs : List α) (ys : List β), omap f xs = some ys →
      ys.length = xs.length := by
  intro xs
  induction xs with
  | nil => intro ys h; simp only [omap, Option.some.injEq] at h; simp [← h]
  | cons x xs ih =>
    intro ys h
    simp only [omap] at h
    cases hf : f x with
    | none => rw [hf] at h; exact absurd h (by simp)
    | some y =>
      rw [hf] at h
      cases ho : omap f xs with
      | none => rw [ho] at h; exact absurd h (by simp)
      | some ys' =>
        rw [ho] at h
        simp only [Option.some.injEq] at h
        subst h
        simp [ih ys' ho]

theorem omap_idx (f : α → Option β) :
    ∀ (xs : List α) (ys : List β), omap f xs = some ys →
      ∀ (j : Nat) (x : α), xs[j]? = some x →
        ∃ y, ys[j]? = some y ∧ f x = some y := by
  intro xs
  induction xs with
  | nil => intro ys _ j x hx; simp at hx
  | cons a xs ih =>
    intro ys h j x hx
    simp only [omap] at h
    cases hf : f a with
    | none => rw [hf] at h; exact absurd h (by simp)
    | some y =>
      rw [hf] at h
      cases ho : omap f xs with
      | none => rw [ho] at h; exact absurd h (by simp)
      | some ys' =>
        rw [ho] at h
        simp only [Option.some.injEq] at h
        subst h
        cases j with
        | zero =>
          simp only [List.getElem?_cons_zero, Option.some.injEq] at hx
          subst hx
          exact ⟨y, by simp, hf⟩
        | succ j =>
          simp only [List.getElem?_cons_succ] at hx ⊢
          exact ih ys' ho j x hx

theorem omap_of_forall (f : α → Option α) :
    ∀ (xs : List α), (∀ x ∈ xs, f x = some x) → omap f xs = some xs := by
  intro xs
  induction xs with
  | nil => intro _; rfl
  | cons a xs ih =>
    intro h
    simp only [omap]
    rw [h a (by simp), ih (fun x hx => h x (by simp [hx]))]

theorem keep_length :
    ∀ (xs : List α) (used : List Bool), used.length = xs.length →
      (keep xs used).length = used.count true := by
  intro xs
  induction xs with
  | nil =>
    intro used h
    cases used with
    | nil => rfl
    | cons u us => simp at h
  | cons x xs ih =>
    intro used h
    cases used with
    | nil => simp at h
    | cons u us =>
      simp only [List.length_cons, Nat.succ.injEq] at h
      have := ih us h
      cases u with
      | true => simp [keep, List.count_cons, this]
      | false => simp [keep, List.count_cons, this]

theorem count_take_succ_true (used : List Bool) (a : Nat)
    (h : used[a]? = some true) :
    (used.take (a + 1)).count true = (used.take a).count true + 1 := by
  rw [List.take_succ, h]
  simp [List.count_append]

theorem count_take_mono (used : List Bool) (a i : Nat) (hai : a ≤ i) :
    (used.take a).count true ≤ (used.take i).count true := by
  have h1 : used.take i = used.take a ++ (used.take i).drop a := by
    rw [List.drop_take, ← List.take_add]
    congr 1
    omega
  rw [h1, List.count_append]
  omega

theorem count_take_lt (used : List Bool) (a i : Nat) (hai : a < i)
    (h : used[a]? = some true) :
    (used.take a).count true < (used.take i).count true := by
  have h1 := count_take_succ_true used a h
  have h2 := count_take_mono used (a + 1) i hai
  omega

theorem count_take_lt_total (used : List Bool) (i : Nat)
    (h : used[i]? = some true) :
    (used.take i).count true < used.count true := by
  have h1 := count_take_succ_true used i h
  have h2 : (used.take (i + 1)).count true ≤ used.count true := by
    conv_rhs => rw [← List.take_append_drop (i + 1) used]
    rw [List.count_append]
    omega
  omega

theorem keep_idx :
    ∀ (xs : List α) (used : List Bool) (i : Nat), used.length = xs.length →
      used[i]? = some true →
      (keep xs used)[(used.take i).count true]? = xs[i]? := by
  intro xs
  induction xs with
  | nil =>
    intro used i h hu
    cases used with
    | nil => simp at hu
    | cons u us => simp at h
  | cons x xs ih =>
    intro used i h hu
    cases used with
    | nil => simp at hu
    | cons u us =>
      simp only [List.length_cons, Nat.succ.injEq] at h
      cases i with
      | zero =>
        simp only [List.getElem?_cons_zero, Option.some.injEq] at hu
        subst hu
        simp [keep]
      | succ i =>
        simp only [List.getElem?_cons_succ] at hu
        have := ih us i h hu
        cases u with
        | true =>
          simp only [keep, cond_true, List.take_succ_cons, List.count_cons]
          simpa [Nat.add_comm] using this
        | false =>
          simp only [keep, cond_false, List.take_succ_cons, List.count_cons]
          simpa using this

theorem keep_surj :
    ∀ (used : List Bool) (j : Nat), j < used.count true →
      ∃ i, i < used.length ∧ used[i]? = some true ∧
        (used.take i).count true = j := by
  intro used
  induction used with
  | nil => intro j h; simp at h
  | cons u us ih =>
    intro j h
    cases u with
    | true =>
      cases j with
      | zero => exact ⟨0, by simp, by simp, by simp⟩
      | succ j =>
        simp only [List.count_cons] at h
        have hj : j < us.count true := by
          simp only [beq_self_eq_true, if_pos] at h
          omega
        obtain ⟨i, hi, hu, hc⟩ := ih j hj
        refine ⟨i + 1, by simpa using hi, by simpa using hu, ?_⟩
        simp [List.take_succ_cons, List.count_cons, hc, Nat.add_comm]
    | false =>
      simp only [List.count_cons] at h
      have hj : j < us.count true := by
        simp only [show (false == true) = false from rfl] at h
        simpa using h
      obtain ⟨i, hi, hu, hc⟩ := ih j hj
      refine ⟨i + 1, by simpa using hi, by simpa using hu, ?_⟩
      simp [List.take_succ_cons, List.count_cons, hc]

theorem count_take_all_true (used : List Bool)
    (h : ∀ j, j < used.length → used[j]? = some true) :
    ∀ i, i ≤ used.length → (used.take i).count true = i := by
  intro i
  induction i with
  | zero => intro _; simp
  | succ i ih =>
    intro hi
    rw [count_take_succ_true used i (h i (by omega)), ih (by omega)]

theorem keep_all_true :
    ∀ (xs : List α) (used : List Bool), used.length = xs.length →
      (∀ j, j < used.length → used[j]? = some true) → keep xs used = xs := by
  intro xs
  induction xs with
  | nil =>
    intro used h _
    cases used with
    | nil => rfl
    | cons u us => simp at h
  | cons x xs ih =>
    intro used h hall
    cases used with
    | nil => simp at h
    | cons u us =>
      simp only [List.length_cons, Nat.succ.injEq] at h
      have hu : u = true := by simpa using hall 0 (by simp)
      subst hu
      simp only [keep, cond_true]
      rw [ih us h (fun j hj => by simpa using hall (j + 1) (by simpa using hj))]

theorem findIdx_le_of_getElem (p : α → Bool) :
    ∀ (l : List α) (i : Nat) (x : α), l[i]? = some x → p x = true →
      l.findIdx p ≤ i := by
  intro l
  induction l with
  | nil => intro i x hx _; simp at hx
  | cons a l ih =>
    intro i x hx hp
    cases i with
    | zero =>
      simp only [List.getElem?_cons_zero, Option.some.injEq] at hx
      subst hx
      simp [List.findIdx_cons, hp]
    | succ i =>
      simp only [List.getElem?_cons_succ] at hx
      rw [List.findIdx_cons]
      cases hpa : p a with
      | true => simp
      | false =>
        simp only [cond_false]
        exact Nat.succ_le_succ (ih i x hx hp)

theorem findIdx_found (p : α → Bool) :
    ∀ (l : List α), l.findIdx p < l.length →
      ∃ y, l[l.findIdx p]? = some y ∧ p y = true := by
  intro l
  induction l with
  | nil => intro h; simp at h
  | cons a l ih =>
    intro h
    rw [List.findIdx_cons]
    cases hpa : p a with
    | true => exact ⟨a, by simp, hpa⟩
    | false =>
      simp only [cond_false]
      rw [List.findIdx_cons, hpa] at h
      simp only [cond_false, List.length_cons] at h
      obtain ⟨y, hy, hpy⟩ := ih (Nat.lt_of_succ_lt_succ h)
      exact ⟨y, by simpa using hy, hpy⟩

/-! ### Lemmas about the generic forward evaluation pass -/

theorem genEvalAux_prefix (f : List Nat → Node → Option Nat) :
    ∀ (nodes : List Node) (vs out : List Nat),
      genEvalAux f nodes vs = some out → ∃ tl, out = vs ++ tl := by
  intro nodes
  induction nodes with
  | nil =>
    intro vs out h
    simp only [genEvalAux, Option.some.injEq] at h
    exact ⟨[], by simp [h]⟩
  | cons nd rest ih =>
    intro vs out h
    simp only [genEvalAux] at h
    cases hf : f vs nd with
    | none => rw [hf] at h; exact absurd h (by simp)
    | some x =>
      rw [hf] at h
      obtain ⟨tl, htl⟩ := ih (vs ++ [x]) out h
      exact ⟨x :: tl, by simp [htl]⟩

theorem genEvalAux_length (f : List Nat → Node → Option Nat) :
    ∀ (nodes : List Node) (vs out : List Nat),
      genEvalAux f nodes vs = some out →
      out.length = vs.length + nodes.length := by
  intro nodes
  induction nodes with
  | nil =>
    intro vs out h
    simp only [genEvalAux, Option.some.injEq] at h
    simp [← h]
  | cons nd rest ih =>
    intro vs out h
    simp only [genEvalAux] at h
    cases hf : f vs nd with
    | none => rw [hf] at h; exact absurd h (by simp)
    | some x =>
      rw [hf] at h
      have h1 := ih (vs ++ [x]) out h
      have h2 : (vs ++ [x]).length = vs.length + 1 := by simp
      simp only [List.length_cons]
      omega

theorem genEvalAux_spec (f : List Nat → Node → Option Nat) :
    ∀ (nodes : List Node) (vs out : List Nat),
      genEvalAux f nodes vs = some out →
      ∀ (j : Nat) (nd : Node), nodes[j]? = some nd →
        ∃ x, out[vs.length + j]? = some x ∧
          f (out.take (vs.length + j)) nd = some x := by
  intro nodes
  induction nodes with
  | nil => intro vs out _ j nd hnd; simp at hnd
  | cons nd0 rest ih =>
    intro vs out h j nd hnd
    simp only [genEvalAux] at h
    cases hf : f vs nd0 with
    | none => rw [hf] at h; exact absurd h (by simp)
    | some x =>
      rw [hf] at h
      obtain ⟨tl, htl⟩ := genEvalAux_prefix f rest (vs ++ [x]) out h
      cases j with
      | zero =>
        simp only [List.getElem?_cons_zero, Option.some.injEq] at hnd
        subst hnd
        refine ⟨x, ?_, ?_⟩
        · rw [htl, List.append_assoc, Nat.add_zero]
          rw [List.getElem?_append_right (Nat.le_refl _)]
          simp
        · have htake : out.take (vs.length + 0) = vs := by
            rw [htl, List.append_assoc, Nat.add_zero]
            exact List.take_left' rfl
          rw [htake]
          exact hf
      | succ j =>
        simp only [List.getElem?_cons_succ] at hnd
        obtain ⟨y, hy1, hy2⟩ := ih (vs ++ [x]) out h j nd hnd
        have harith : (vs ++ [x]).length + j = vs.length + (j + 1) := by
          simp
          omega
        rw [harith] at hy1 hy2
        exact ⟨y, hy1, hy2⟩

theorem genEvalAux_sim (f : List Nat → Node → Option Nat) :
    ∀ (nodes : List Node) (k : Nat) (v : List Nat),
      k + nodes.length = v.length →
      (∀ (j : Nat) (nd : Node), nodes[j]? = some nd →
        ∃ x, v[k + j]? = some x ∧ f (v.take (k + j)) nd = some x) →
      genEvalAux f nodes (v.take k) = some v := by
  intro nodes
  induction nodes with
  | nil =>
    intro k v hk _
    simp only [List.length_nil, Nat.add_zero] at hk
    simp [genEvalAux, hk, List.take_length]
  | cons nd rest ih =>
    intro k v hk hall
    obtain ⟨x, hx1, hx2⟩ := hall 0 nd (by simp)
    simp only [Nat.add_zero] at hx1 hx2
    simp only [genEvalAux, hx2]
    have htake : v.take k ++ [x] = v.take (k + 1) := by
      rw [List.take_succ, hx1]
      rfl
    rw [htake]
    apply ih (k + 1) v (by simp only [List.length_cons] at hk; omega)
    intro j nd' hnd'
    have := hall (j + 1) nd' (by simpa using hnd')
    have harith : k + (j + 1) = k + 1 + j := by omega
    rw [harith] at this
    exact this

theorem evalNodes_spec (m : Nat) (inputs : List Nat) (nodes : List Node)
    (v : List Nat) (h : evalNodes m inputs nodes = some v) :
    v.length = nodes.length ∧
    ∀ (j : Nat) (nd : Node), nodes[j]? = some nd →
      ∃ x, v[j]? = some x ∧ nodeValue m inputs (v.take j) nd = some x := by
  constructor
  · simpa using genEvalAux_length _ nodes [] v h
  · intro j nd hnd
    simpa using genEvalAux_spec _ nodes [] v h j nd hnd

theorem evalNodes_sim (m : Nat) (inputs : List Nat) (nodes : List Node)
    (v : List Nat) (hk : nodes.length = v.length)
    (hall : ∀ (j : Nat) (nd : Node), nodes[j]? = some nd →
      ∃ x, v[j]? = some x ∧ nodeValue m inputs (v.take j) nd = some x) :
    evalNodes m inputs nodes = some v := by
  have := genEvalAux_sim (nodeValue m inputs) nodes 0 v (by simpa using hk)
    (by simpa using hall)
  simpa [evalNodes] using this

/-! ### The back-reference invariant -/

theorem validFrom_iff :
    ∀ (nodes : List Node) (k : Nat), validFrom k nodes = true ↔
      ∀ (j : Nat) (op : Operation) (a b : Nat),
        nodes[j]? = some (Node.Op op a b) → a < k + j ∧ b < k + j := by
  intro nodes
  induction nodes with
  | nil => intro k; simp [validFrom]
  | cons nd rest ih =>
    intro k
    constructor
    · intro h j op a b hj
      simp only [validFrom, Bool.and_eq_true] at h
      cases j with
      | zero =>
        simp only [List.getElem?_cons_zero, Option.some.injEq] at hj
        subst hj
        simp only [decide_eq_true_eq, Bool.and_eq_true] at h
        obtain ⟨⟨h1, h2⟩, _⟩ := h
        exact ⟨by omega, by omega⟩
      | succ j =>
        simp only [List.getElem?_cons_succ] at hj
        have := (ih (k + 1)).mp h.2 j op a b hj
        exact ⟨by omega, by omega⟩
    · intro h
      simp only [validFrom, Bool.and_eq_true]
      constructor
      · cases hnd : nd with
        | Op op a b =>
          have := h 0 op a b (by simp [hnd])
          simp only [decide_eq_true_eq, Bool.and_eq_true]
          exact ⟨by omega, by omega⟩
        | Input i => simp
        | Constant c => simp
      · exact (ih (k + 1)).mpr (fun j op a b hj => by
          have := h (j + 1) op a b (by simpa using hj)
          exact ⟨by omega, by omega⟩)

theorem is_valid_iff (g : Graph) :
    g.is_valid = true ↔
      ∀ (j : Nat) (op : Operation) (a b : Nat),
        g.nodes[j]? = some (Node.Op op a b) → a < j ∧ b < j := by
  have := validFrom_iff g.nodes 0
  simpa [Graph.is_valid] using this

/-! ### Lemmas about the liveness marking of `tree_shake` -/

theorem markStep_length (nodes : List Node) (used : List Bool) (i : Nat) :
    (markStep nodes used i).length = used.length := by
  unfold markStep
  split
  · split
    · simp [List.length_set]
    · rfl
  · rfl

theorem markLoop_length (nodes : List Node) :
    ∀ (k : Nat) (used : List Bool),
      (markLoop nodes k used).length = used.length := by
  intro k
  induction k with
  | zero => intro used; rfl
  | succ k ih =>
    intro used
    simp only [markLoop]
    rw [ih, markStep_length]

theorem set_true_mono (used : List Bool) (a i : Nat)
    (h : used[i]? = some true) : (used.set a true)[i]? = some true := by
  by_cases hai : a = i
  · subst hai
    exact List.getElem?_set_eq_of_lt true (List.getElem?_eq_some_iff.mp h).1
  · rw [List.getElem?_set_ne hai]
    exact h

theorem markStep_mono (nodes : List Node) (used : List Bool) (k i : Nat)
    (h : used[i]? = some true) :
    (markStep nodes used k)[i]? = some true := by
  unfold markStep
  split
  · split
    · exact set_true_mono _ _ i (set_true_mono _ _ i h)
    · exact h
  · exact h

theorem markLoop_mono (nodes : List Node) :
    ∀ (k : Nat) (used : List Bool) (i : Nat), used[i]? = some true →
      (markLoop nodes k used)[i]? = some true := by
  intro k
  induction k with
  | zero => intro used i h; exact h
  | succ k ih =>
    intro used i h
    simp only [markLoop]
    exact ih _ i (markStep_mono nodes used k i h)

/-- Positions at or above the counter are untouched by the backward pass,
provided every processed `Op` node has operands below itself. -/
theorem markLoop_frame (nodes : List Node)
    (hvalid : ∀ (j : Nat) (op : Operation) (a b : Nat),
      nodes[j]? = some (Node.Op op a b) → a < j ∧ b < j) :
    ∀ (k : Nat) (used : List Bool) (i : Nat), k ≤ i →
      (markLoop nodes k used)[i]? = used[i]? := by
  intro k
  induction k with
  | zero => intro used i _; rfl
  | succ k ih =>
    intro used i hki
    simp only [markLoop]
    rw [ih _ i (by omega)]
    unfold markStep
    split
    · split
      · rename_i op a b heq
        have hab := hvalid k op a b heq
        rw [List.getElem?_set_ne (by omega), List.getElem?_set_ne (by omega)]
      · rfl
    · rfl

/-- Closure: in the final marking, a live `Op` node below the counter has
both operands live. -/
theorem markLoop_closure (nodes : List Node)
    (hvalid : ∀ (j : Nat) (op : Operation) (a b : Nat),
      nodes[j]? = some (Node.Op op a b) → a < j ∧ b < j) :
    ∀ (k : Nat) (used : List Bool), k ≤ used.length →
      ∀ (i : Nat) (op : Operation) (a b : Nat), i < k →
        (markLoop nodes k used)[i]? = some true →
        nodes[i]? = some (.Op op a b) →
        (markLoop nodes k used)[a]? = some true ∧
        (markLoop nodes k used)[b]? = some true := by
  intro k
  induction k with
  | zero => intro used _ i op a b h; omega
  | succ k ih =>
    intro used hk i op a b hik hlive hnode
    simp only [markLoop] at hlive ⊢
    rcases Nat.lt_or_ge i k with hik' | hik'
    · exact ih (markStep nodes used k)
        (by rw [markStep_length]; omega) i op a b hik' hlive hnode
    · have hieq : i = k := by omega
      subst hieq
      have hfr : (markLoop nodes i (markStep nodes used i))[i]? =
          (markStep nodes used i)[i]? :=
        markLoop_frame nodes hvalid i (markStep nodes used i) i (Nat.le_refl i)
      rw [hfr] at hlive
      have hab := hvalid i op a b hnode
      have hstep : (markStep nodes used i)[i]? = used[i]? := by
        unfold markStep
        split
        · split
          · rename_i op' a' b' heq
            have hab' := hvalid i op' a' b' heq
            rw [List.getElem?_set_ne (by omega), List.getElem?_set_ne (by omega)]
          · rfl
        · rfl
      rw [hstep] at hlive
      have hilen : i < used.length := (List.getElem?_eq_some_iff.mp hlive).1
      have ha : (markStep nodes used i)[a]? = some true := by
        unfold markStep
        rw [hlive, if_pos rfl, hnode]
        by_cases hba : b = a
        · subst hba
          exact List.getElem?_set_eq_of_lt true (by rw [List.length_set]; omega)
        · rw [List.getElem?_set_ne hba]
          exact List.getElem?_set_eq_of_lt true (by omega)
      have hb : (markStep nodes used i)[b]? = some true := by
        unfold markStep
        rw [hlive, if_pos rfl, hnode]
        exact List.getElem?_set_eq_of_lt true (by rw [List.length_set]; omega)
      exact ⟨markLoop_mono nodes i _ a ha, markLoop_mono nodes i _ b hb⟩

/-- Origin: a position live in the final marking was live initially or is
an operand of a strictly later live `Op` node below the counter. -/
theorem markLoop_origin (nodes : List Node)
    (hvalid : ∀ (j : Nat) (op : Operation) (a b : Nat),
      nodes[j]? = some (Node.Op op a b) → a < j ∧ b < j) :
    ∀ (k : Nat) (used : List Bool) (i : Nat),
      (markLoop nodes k used)[i]? = some true →
      used[i]? = some true ∨
      ∃ i2 op a b, i2 < k ∧ i < i2 ∧
        (markLoop nodes k used)[i2]? = some true ∧
        nodes[i2]? = some (.Op op a b) ∧ (a = i ∨ b = i) := by
  intro k
  induction k with
  | zero => intro used i h; exact Or.inl h
  | succ k ih =>
    intro used i h
    simp only [markLoop] at h ⊢
    rcases ih (markStep nodes used k) i h with h1 | h1
    · -- live after the single step at position k
      by_cases hu : used[i]? = some true
      · exact Or.inl hu
      · -- the step at k set position i, so node k is a live Op with operand i
        unfold markStep at h1
        by_cases hk : used[k]? = some true
        · rw [if_pos hk] at h1
          cases hnk : nodes[k]? with
          | none => rw [hnk] at h1; exact absurd h1 hu
          | some nd =>
            rw [hnk] at h1
            cases nd with
            | Input j => exact absurd h1 hu
            | Constant c => exact absurd h1 hu
            | Op op a b =>
              have hab := hvalid k op a b hnk
              have hmem : a = i ∨ b = i := by
                by_contra hcon
                push_neg at hcon
                rw [List.getElem?_set_ne hcon.2, List.getElem?_set_ne hcon.1] at h1
                exact hu h1
              refine Or.inr ⟨k, op, a, b, by omega, by omega, ?_, hnk, hmem⟩
              rw [markLoop_frame nodes hvalid k _ k (Nat.le_refl k)]
              exact markStep_mono nodes used k k hk
        · rw [if_neg hk] at h1
          exact absurd h1 hu
    · obtain ⟨i2, op, a, b, hi2k, hii2, hlive, hnode, hmem⟩ := h1
      exact Or.inr ⟨i2, op, a, b, by omega, hii2, hlive, hnode, hmem⟩

/-! ### Lemmas about `markOutputs` -/

theorem markOutputs_length (n : Nat) :
    ∀ (os : List Nat) (used used' : List Bool),
      markOutputs n os used = some used' → used'.length = used.length := by
  intro os
  induction os with
  | nil =>
    intro used used' h
    simp only [markOutputs, Option.some.injEq] at h
    rw [← h]
  | cons o os ih =>
    intro used used' h
    simp only [markOutputs] at h
    split at h
    · rw [ih _ _ h, List.length_set]
    · exact absurd h (by simp)

theorem markOutputs_some (n : Nat) :
    ∀ (os : List Nat) (used : List Bool), (∀ o ∈ os, o < n) →
      ∃ used', markOutputs n os used = some used' := by
  intro os
  induction os with
  | nil => intro used _; exact ⟨used, rfl⟩
  | cons o os ih =>
    intro used h
    simp only [markOutputs]
    rw [if_pos (h o (by simp))]
    exact ih _ (fun o' ho' => h o' (by simp [ho']))

theorem markOutputs_bound (n : Nat) :
    ∀ (os : List Nat) (used used' : List Bool),
      markOutputs n os used = some used' → ∀ o ∈ os, o < n := by
  intro os
  induction os with
  | nil => intro used used' _ o ho; simp at ho
  | cons o os ih =>
    intro used used' h o' ho'
    simp only [markOutputs] at h
    split at h
    · rcases List.mem_cons.mp ho' with h1 | h1
      · subst h1; assumption
      · exact ih _ _ h o' h1
    · exact absurd h (by simp)

theorem markOutputs_mono (n : Nat) :
    ∀ (os : List Nat) (used used' : List Bool),
      markOutputs n os used = some used' →
      ∀ (i : Nat), used[i]? = some true → used'[i]? = some true := by
  intro os
  induction os with
  | nil =>
    intro used used' h i hi
    simp only [markOutputs, Option.some.injEq] at h
    rw [← h]; exact hi
  | cons o os ih =>
    intro used used' h i hi
    simp only [markOutputs] at h
    split at h
    · refine ih _ _ h i ?_
      by_cases hoi : o = i
      · subst hoi
        exact List.getElem?_set_eq_of_lt true (List.getElem?_eq_some_iff.mp hi).1
      · rw [List.getElem?_set_ne hoi]; exact hi
    · exact absurd h (by simp)

theorem markOutputs_marks (n : Nat) :
    ∀ (os : List Nat) (used used' : List Bool), used.length = n →
      markOutputs n os used = some used' →
      ∀ o ∈ os, used'[o]? = some true := by
  intro os
  induction os with
  | nil => intro used used' _ _ o ho; simp at ho
  | cons o os ih =>
    intro used used' hlen h o' ho'
    simp only [markOutputs] at h
    split at h
    · rcases List.mem_cons.mp ho' with h1 | h1
      · subst h1
        exact markOutputs_mono n os _ _ h o'
          (List.getElem?_set_eq_of_lt true (by omega))
      · exact ih _ _ (by rw [List.length_set]; exact hlen) h o' h1
    · exact absurd h (by simp)

theorem markOutputs_origin (n : Nat) :
    ∀ (os : List Nat) (used used' : List Bool),
      markOutputs n os used = some used' →
      ∀ (i : Nat), used'[i]? = some true →
        used[i]? = some true ∨ i ∈ os := by
  intro os
  induction os with
  | nil =>
    intro used used' h i hi
    simp only [markOutputs, Option.some.injEq] at h
    rw [← h] at hi
    exact Or.inl hi
  | cons o os ih =>
    intro used used' h i hi
    simp only [markOutputs] at h
    split at h
    · rcases ih _ _ h i hi with h1 | h1
      · by_cases hoi : o = i
        · subst hoi; exact Or.inr (by simp)
        · rw [List.getElem?_set_ne hoi] at h1
          exact Or.inl h1
      · exact Or.inr (by simp [h1])
    · exact absurd h (by simp)

/-! ### Lemmas about the in-place update loops -/

theorem stepLoop_split (f : List Node → Nat → Option (List Node)) :
    ∀ (f1 f2 i : Nat) (nodes : List Node),
      stepLoop f i (f1 + f2) nodes =
        match stepLoop f i f1 nodes with
        | some ns => stepLoop f (i + f1) f2 ns
        | none => none := by
  intro f1
  induction f1 with
  | zero => intro f2 i nodes; simp [stepLoop]
  | succ f1 ih =>
    intro f2 i nodes
    have harith : f1 + 1 + f2 = (f1 + f2) + 1 := by omega
    rw [harith]
    simp only [stepLoop]
    cases hf : f nodes i with
    | none => rfl
    | some ns =>
      show stepLoop f (i + 1) (f1 + f2) ns =
        match stepLoop f (i + 1) f1 ns with
        | some ns2 => stepLoop f (i + (f1 + 1)) f2 ns2
        | none => none
      rw [ih f2 (i + 1) ns]
      have h2 : i + 1 + f1 = i + (f1 + 1) := by omega
      rw [h2]

/-- If each step preserves a predicate on the node list, the whole loop
does. -/
theorem stepLoop_inv (f : List Node → Nat → Option (List Node))
    (P : List Node → Prop)
    (hstep : ∀ ns i ns', f ns i = some ns' → P ns → P ns') :
    ∀ (fl i : Nat) (nodes nodes' : List Node),
      stepLoop f i fl nodes = some nodes' → P nodes → P nodes' := by
  intro fl
  induction fl with
  | zero =>
    intro i nodes nodes' h hp
    simp only [stepLoop, Option.some.injEq] at h
    rw [← h]; exact hp
  | succ fl ih =>
    intro i nodes nodes' h hp
    simp only [stepLoop] at h
    cases hf : f nodes i with
    | none => rw [hf] at h; exact absurd h (by simp)
    | some ns =>
      rw [hf] at h
      exact ih (i + 1) ns nodes' h (hstep nodes i ns hf hp)

/-- A loop whose steps only touch the position they are run at leaves
positions outside the processed window unchanged. -/
theorem stepLoop_frame (f : List Node → Nat → Option (List Node))
    (hloc : ∀ ns i ns' (j : Nat), f ns i = some ns' → j ≠ i →
      ns'[j]? = ns[j]?) :
    ∀ (fl i : Nat) (nodes nodes' : List Node),
      stepLoop f i fl nodes = some nodes' →
      ∀ (j : Nat), (j < i ∨ i + fl ≤ j) → nodes'[j]? = nodes[j]? := by
  intro fl
  induction fl with
  | zero =>
    intro i nodes nodes' h j _
    simp only [stepLoop, Option.some.injEq] at h
    rw [← h]
  | succ fl ih =>
    intro i nodes nodes' h j hj
    simp only [stepLoop] at h
    cases hf : f nodes i with
    | none => rw [hf] at h; exact absurd h (by simp)
    | some ns =>
      rw [hf] at h
      rw [ih (i + 1) ns nodes' h j (by omega)]
      exact hloc nodes i ns j hf (by omega)

theorem stepLoop_some (f : List Node → Nat → Option (List Node))
    (P : List Node → Prop)
    (hstep : ∀ ns i ns', f ns i = some ns' → P ns → P ns')
    (htot : ∀ ns i, P ns → ∃ ns', f ns i = some ns') :
    ∀ (fl i : Nat) (nodes : List Node), P nodes →
      ∃ nodes', stepLoop f i fl nodes = some nodes' := by
  intro fl
  induction fl with
  | zero => intro i nodes _; exact ⟨nodes, rfl⟩
  | succ fl ih =>
    intro i nodes hp
    obtain ⟨ns, hns⟩ := htot nodes i hp
    simp only [stepLoop, hns]
    exact ih (i + 1) ns (hstep nodes i ns hns hp)

theorem omap_idx_rev (f : α → Option β) :
    ∀ (xs : List α) (ys : List β), omap f xs = some ys →
      ∀ (j : Nat) (y : β), ys[j]? = some y →
        ∃ x, xs[j]? = some x ∧ f x = some y := by
  intro xs
  induction xs with
  | nil =>
    intro ys h j y hy
    simp only [omap, Option.some.injEq] at h
    rw [← h] at hy
    simp at hy
  | cons a xs ih =>
    intro ys h j y hy
    simp only [omap] at h
    cases hf : f a with
    | none => rw [hf] at h; exact absurd h (by simp)
    | some y0 =>
      rw [hf] at h
      cases ho : omap f xs with
      | none => rw [ho] at h; exact absurd h (by simp)
      | some ys' =>
        rw [ho] at h
        simp only [Option.some.injEq] at h
        subst h
        cases j with
        | zero =>
          simp only [List.getElem?_cons_zero, Option.some.injEq] at hy
          subst hy
          exact ⟨a, by simp, hf⟩
        | succ j =>
          simp only [List.getElem?_cons_succ] at hy ⊢
          exact ih ys' ho j y hy

/-! ### Inversion lemmas for the passes -/

theorem tree_shake_inv (g : Graph) (o : List Nat) (g' : Graph)
    (o' : List Nat) (h : g.tree_shake o = some (g', o')) :
    g.is_valid = true ∧
    ∃ used0,
      markOutputs g.nodes.length o (List.replicate g.nodes.length false) =
        some used0 ∧
      omap (renumNode (markLoop g.nodes g.nodes.length used0))
        (keep g.nodes (markLoop g.nodes g.nodes.length used0)) = some g'.nodes ∧
      omap (renum (markLoop g.nodes g.nodes.length used0)) o = some o' ∧
      g'.inputs = g.inputs ∧ g'.modulus = g.modulus := by
  unfold Graph.tree_shake at h
  split at h
  · rename_i hv
    refine ⟨hv, ?_⟩
    split at h
    · exact absurd h (by simp)
    · rename_i used0 hmo
      refine ⟨used0, hmo, ?_⟩
      split at h
      · rename_i nodes1 outputs1 hn ho
        simp only [Option.some.injEq, Prod.mk.injEq] at h
        obtain ⟨hg, ho'⟩ := h
        subst ho'
        rw [← hg]
        exact ⟨hn, ho, rfl, rfl⟩
      · exact absurd h (by simp)
  · exact absurd h (by simp)

theorem propagate_inv (g g' : Graph) (h : g.propagate = some g') :
    g.is_valid = true ∧
    stepLoop (propStep g.modulus) 0 g.nodes.length g.nodes = some g'.nodes ∧
    g'.inputs = g.inputs ∧ g'.modulus = g.modulus := by
  unfold Graph.propagate at h
  split at h
  · rename_i hv
    refine ⟨hv, ?_⟩
    split at h
    · rename_i ns hns
      simp only [Option.some.injEq] at h
      rw [← h]
      exact ⟨hns, rfl, rfl⟩
    · exact absurd h (by simp)
  · exact absurd h (by simp)

theorem value_numbering_inv (g : Graph) (o : List Nat) (t : Tape)
    (g' : Graph) (o' : List Nat)
    (h : g.value_numbering o t = some (g', o')) :
    g.is_valid = true ∧
    ∃ values, randomEval g t = some values ∧
      omap (fun nd =>
        match nd with
        | Node.Op op a b =>
          match (values.map (fun v => values.findIdx (fun x => x == v)))[a]?,
              (values.map (fun v => values.findIdx (fun x => x == v)))[b]? with
          | some a1, some b1 => some (Node.Op op a1 b1)
          | _, _ => none
        | nd => some nd) g.nodes = some g'.nodes ∧
      omap (fun oo =>
        (values.map (fun v => values.findIdx (fun x => x == v)))[oo]?) o =
        some o' ∧
      g'.inputs = g.inputs ∧ g'.modulus = g.modulus := by
  unfold Graph.value_numbering at h
  split at h
  · rename_i hv
    refine ⟨hv, ?_⟩
    split at h
    · exact absurd h (by simp)
    · rename_i values hval
      refine ⟨values, hval, ?_⟩
      split at h
      · rename_i nodes1 outputs1 hn ho
        simp only [Option.some.injEq, Prod.mk.injEq] at h
        obtain ⟨hg, ho'⟩ := h
        subst ho'
        rw [← hg]
        exact ⟨hn, ho, rfl, rfl⟩
      · exact absurd h (by simp)
  · exact absurd h (by simp)

theorem constants_inv (g : Graph) (t1 t2 : Tape) (g' : Graph)
    (h : g.constants t1 t2 = some g') :
    g.is_valid = true ∧
    ∃ sa sb, randomEval g t1 = some sa ∧ randomEval g t2 = some sb ∧
      stepLoop (constStep sa sb) 0 g.nodes.length g.nodes = some g'.nodes ∧
      g'.inputs = g.inputs ∧ g'.modulus = g.modulus := by
  unfold Graph.constants at h
  split at h
  · rename_i hv
    refine ⟨hv, ?_⟩
    split at h
    · rename_i sa sb hsa hsb
      refine ⟨sa, sb, hsa, hsb, ?_⟩
      split at h
      · rename_i ns hns
        simp only [Option.some.injEq] at h
        rw [← h]
        exact ⟨hns, rfl, rfl⟩
      · exact absurd h (by simp)
    · exact absurd h (by simp)
  · exact absurd h (by simp)

theorem optimize_inv (g : Graph) (o : List Nat) (t t1 t2 : Tape)
    (g' : Graph) (o' : List Nat)
    (h : g.optimize o t t1 t2 = some (g', o')) :
    ∃ g1 o1 g2 g3 o3 g4,
      g.tree_shake o = some (g1, o1) ∧
      g1.propagate = some g2 ∧
      g2.value_numbering o1 t = some (g3, o3) ∧
      g3.constants t1 t2 = some g4 ∧
      g4.tree_shake o3 = some (g', o') := by
  unfold Graph.optimize at h
  split at h
  · exact absurd h (by simp)
  · rename_i g1 o1 h1
    split at h
    · exact absurd h (by simp)
    · rename_i g2 h2
      split at h
      · exact absurd h (by simp)
      · rename_i g3 o3 h3
        split at h
        · exact absurd h (by simp)
        · rename_i g4 h4
          exact ⟨g1, o1, g2, g3, o3, g4, h1, h2, h3, h4, h⟩

/-! ### Structure of the single update steps -/

theorem propStep_shape (m : Nat) (ns : List Node) (i : Nat)
    (ns' : List Node) (h : propStep m ns i = some ns') :
    ns' = ns ∨ ∃ v, ns' = ns.set i (Node.Constant v) := by
  unfold propStep at h
  repeat
    first
      | (simp only [Option.some.injEq] at h
         first
           | exact Or.inl h.symm
           | exact Or.inr ⟨_, h.symm⟩)
      | simp at h
      | split at h

theorem constStep_shape (sa sb : List Nat) (ns : List Node) (i : Nat)
    (ns' : List Node) (h : constStep sa sb ns i = some ns') :
    ns' = ns ∨ ∃ v, ns' = ns.set i (Node.Constant v) := by
  unfold constStep at h
  repeat
    first
      | (simp only [Option.some.injEq] at h
         first
           | exact Or.inl h.symm
           | exact Or.inr ⟨_, h.symm⟩)
      | simp at h
      | split at h

/-- Setting a position to a `Constant` cannot create an `Op` node. -/
theorem set_constant_op (ns : List Node) (i : Nat) (v : Nat) (j : Nat)
    (op : Operation) (a b : Nat)
    (h : (ns.set i (Node.Constant v))[j]? = some (Node.Op op a b)) :
    ns[j]? = some (Node.Op op a b) := by
  by_cases hji : i = j
  · subst hji
    rw [List.getElem?_set_self'] at h
    cases hn : ns[i]? with
    | none => rw [hn] at h; simp at h
    | some nd => rw [hn] at h; simp at h
  · rw [List.getElem?_set_ne hji] at h
    exact h

/-- The two constifying loops preserve the back-reference invariant. -/
theorem stepLoop_valid (f : List Node → Nat → Option (List Node))
    (hshape : ∀ ns i ns', f ns i = some ns' →
      ns' = ns ∨ ∃ v, ns' = ns.set i (Node.Constant v))
    (fl i : Nat) (nodes nodes' : List Node)
    (h : stepLoop f i fl nodes = some nodes')
    (hvalid : ∀ (j : Nat) (op : Operation) (a b : Nat),
      nodes[j]? = some (Node.Op op a b) → a < j ∧ b < j) :
    ∀ (j : Nat) (op : Operation) (a b : Nat),
      nodes'[j]? = some (Node.Op op a b) → a < j ∧ b < j := by
  refine stepLoop_inv f
    (fun ns => ∀ (j : Nat) (op : Operation) (a b : Nat),
      ns[j]? = some (Node.Op op a b) → a < j ∧ b < j) ?_ fl i nodes nodes' h hvalid
  intro ns k ns' hf hp j op a b hj
  rcases hshape ns k ns' hf with h1 | ⟨v, h1⟩
  · subst h1; exact hp j op a b hj
  · subst h1
    exact hp j op a b (set_constant_op ns k v j op a b hj)

theorem stepLoop_length (f : List Node → Nat → Option (List Node))
    (hshape : ∀ ns i ns', f ns i = some ns' →
      ns' = ns ∨ ∃ v, ns' = ns.set i (Node.Constant v))
    (fl i : Nat) (nodes nodes' : List Node)
    (h : stepLoop f i fl nodes = some nodes') :
    nodes'.length = nodes.length := by
  have := stepLoop_inv f (fun ns => ns.length = nodes.length) ?_ fl i nodes nodes' h rfl
  · exact this
  · intro ns k ns' hf hp
    rcases hshape ns k ns' hf with h1 | ⟨v, h1⟩
    · subst h1; exact hp
    · subst h1; rw [List.length_set]; exact hp

/-! ### Validity preservation of each pass -/

theorem renum_some (used : List Bool) (a r : Nat)
    (h : renum used a = some r) :
    used[a]? = some true ∧ r = (used.take a).count true := by
  unfold renum at h
  split at h
  · rename_i hu
    simp only [Option.some.injEq] at h
    exact ⟨hu, h.symm⟩
  · exact absurd h (by simp)

theorem shake_used_length (g : Graph) (o : List Nat) (used0 : List Bool)
    (hmo : markOutputs g.nodes.length o
      (List.replicate g.nodes.length false) = some used0) :
    (markLoop g.nodes g.nodes.length used0).length = g.nodes.length := by
  rw [markLoop_length, markOutputs_length _ _ _ _ hmo, List.length_replicate]

theorem shake_kept_src (g : Graph) (used : List Bool)
    (hulen : used.length = g.nodes.length)
    (nodes1 : List Node)
    (hn : omap (renumNode used) (keep g.nodes used) = some nodes1) :
    ∀ (j : Nat) (nd1 : Node), nodes1[j]? = some nd1 →
      ∃ i, i < used.length ∧ used[i]? = some true ∧
        (used.take i).count true = j ∧
        g.nodes[i]? ≠ none ∧
        renumNode used ((g.nodes[i]?).getD (Node.Constant 0)) = some nd1 := by
  intro j nd1 hj
  obtain ⟨nd, hnd, hrn⟩ := omap_idx_rev _ _ _ hn j nd1 hj
  have hjlen : j < (keep g.nodes used).length :=
    (List.getElem?_eq_some_iff.mp hnd).1
  rw [keep_length g.nodes used hulen] at hjlen
  obtain ⟨i, hi, hu, hc⟩ := keep_surj used j hjlen
  have hk := keep_idx g.nodes used i hulen hu
  rw [hc, hnd] at hk
  refine ⟨i, hi, hu, hc, ?_, ?_⟩
  · rw [← hk]; simp
  · rw [← hk]; simpa using hrn

theorem shake_valid (g : Graph) (o : List Nat) (g' : Graph) (o' : List Nat)
    (h : g.tree_shake o = some (g', o')) : g'.is_valid = true := by
  obtain ⟨hv, used0, hmo, hn, ho, _, _⟩ := tree_shake_inv g o g' o' h
  have hvalid := (is_valid_iff g).mp hv
  have hulen := shake_used_length g o used0 hmo
  set used := markLoop g.nodes g.nodes.length used0 with hused
  rw [is_valid_iff]
  intro j op a1 b1 hj
  obtain ⟨i, hi, hu, hc, hne, hrn⟩ :=
    shake_kept_src g used hulen g'.nodes hn j (Node.Op op a1 b1) hj
  cases hnd : g.nodes[i]? with
  | none => exact absurd hnd hne
  | some nd =>
    rw [hnd] at hrn
    simp only [Option.getD_some] at hrn
    cases nd with
    | Input k => simp [renumNode] at hrn
    | Constant c => simp [renumNode] at hrn
    | Op op0 a b =>
      simp only [renumNode] at hrn
      cases hra : renum used a with
      | none => rw [hra] at hrn; simp at hrn
      | some a2 =>
        cases hrb : renum used b with
        | none => rw [hra, hrb] at hrn; simp at hrn
        | some b2 =>
          rw [hra, hrb] at hrn
          simp only [Option.some.injEq, Node.Op.injEq] at hrn
          obtain ⟨hop, ha2, hb2⟩ := hrn
          subst hop
          subst ha2
          subst hb2
          obtain ⟨hua, hra'⟩ := renum_some used a _ hra
          obtain ⟨hub, hrb'⟩ := renum_some used b _ hrb
          rw [hra', hrb', ← hc]
          have h1 := count_take_lt used a i (hvalid i op0 a b hnd).1 hua
          have h2 := count_take_lt used b i (hvalid i op0 a b hnd).2 hub
          exact ⟨h1, h2⟩

theorem propagate_valid (g : Graph) (g' : Graph)
    (h : g.propagate = some g') : g'.is_valid = true := by
  obtain ⟨hv, hloop, _, _⟩ := propagate_inv g g' h
  rw [is_valid_iff]
  exact stepLoop_valid _ (propStep_shape g.modulus) _ _ _ _ hloop
    ((is_valid_iff g).mp hv)

theorem value_numbering_valid (g : Graph) (o : List Nat) (t : Tape)
    (g' : Graph) (o' : List Nat)
    (h : g.value_numbering o t = some (g', o')) : g'.is_valid = true := by
  obtain ⟨hv, values, hval, hn, ho, _, _⟩ := value_numbering_inv g o t g' o' h
  have hvalid := (is_valid_iff g).mp hv
  rw [is_valid_iff]
  intro j op a1 b1 hj
  obtain ⟨nd, hnd, hrn⟩ := omap_idx_rev _ _ _ hn j (Node.Op op a1 b1) hj
  cases nd with
  | Input k => simp at hrn
  | Constant c => simp at hrn
  | Op op0 a b =>
    simp only [] at hrn
    cases hra : (values.map (fun v => values.findIdx (fun x => x == v)))[a]? with
    | none => rw [hra] at hrn; simp at hrn
    | some a2 =>
      cases hrb : (values.map (fun v => values.findIdx (fun x => x == v)))[b]? with
      | none => rw [hra, hrb] at hrn; simp at hrn
      | some b2 =>
        rw [hra, hrb] at hrn
        simp only [Option.some.injEq, Node.Op.injEq] at hrn
        obtain ⟨hop, ha2, hb2⟩ := hrn
        subst hop
        subst ha2
        subst hb2
        obtain ⟨hab1, hab2⟩ := hvalid j op0 a b hnd
        -- the renumbered operand is at most the original operand
        rw [List.getElem?_map] at hra hrb
        cases hva : values[a]? with
        | none => rw [hva] at hra; simp at hra
        | some va =>
          rw [hva] at hra
          simp only [Option.map_some', Option.some.injEq] at hra
          cases hvb : values[b]? with
          | none => rw [hvb] at hrb; simp at hrb
          | some vb =>
            rw [hvb] at hrb
            simp only [Option.map_some', Option.some.injEq] at hrb
            have h1 : values.findIdx (fun x => x == va) ≤ a :=
              findIdx_le_of_getElem _ values a va hva (by simp)
            have h2 : values.findIdx (fun x => x == vb) ≤ b :=
              findIdx_le_of_getElem _ values b vb hvb (by simp)
            omega

theorem constants_valid (g : Graph) (t1 t2 : Tape) (g' : Graph)
    (h : g.constants t1 t2 = some g') : g'.is_valid = true := by
  obtain ⟨hv, sa, sb, _, _, hloop, _, _⟩ := constants_inv g t1 t2 g' h
  rw [is_valid_iff]
  exact stepLoop_valid _ (constStep_shape sa sb) _ _ _ _ hloop
    ((is_valid_iff g).mp hv)

theorem optimize_valid (g : Graph) (o : List Nat) (t t1 t2 : Tape)
    (g' : Graph) (o' : List Nat)
    (h : g.optimize o t t1 t2 = some (g', o')) : g'.is_valid = true := by
  obtain ⟨g1, o1, g2, g3, o3, g4, h1, h2, h3, h4, h5⟩ :=
    optimize_inv g o t t1 t2 g' o' h
  exact shake_valid g4 o3 g' o' h5

/-! ### Semantic preservation of the passes -/

theorem getElem?_take_lt (l : List Nat) (n i : Nat) (h : i < n) :
    (l.take n)[i]? = l[i]? := by
  rw [List.getElem?_take, if_pos h]

theorem getElem?_of_take (l : List Nat) (n i : Nat) (x : Nat)
    (h : (l.take n)[i]? = some x) : i < n ∧ l[i]? = some x := by
  rw [List.getElem?_take] at h
  by_cases hc : i < n
  · exact ⟨hc, by rw [if_pos hc] at h; exact h⟩
  · rw [if_neg hc] at h; simp at h

theorem nodeValue_op (m : Nat) (inputs vs : List Nat) (op : Operation)
    (a b : Nat) (x : Nat)
    (h : nodeValue m inputs vs (Node.Op op a b) = some x) :
    ∃ va vb, vs[a]? = some va ∧ vs[b]? = some vb ∧
      op.eval va vb m = some x := by
  simp only [nodeValue] at h
  cases hva : vs[a]? with
  | none => rw [hva] at h; simp at h
  | some va =>
    cases hvb : vs[b]? with
    | none => rw [hva, hvb] at h; simp at h
    | some vb =>
      rw [hva, hvb] at h
      exact ⟨va, vb, rfl, rfl, h⟩

theorem eval_refl_true (op : Operation) (x m : Nat)
    (hop : op = Operation.Eq ∨ op = Operation.Leq ∨ op = Operation.Geq) :
    op.eval x x m = some 1 := by
  rcases hop with h | h | h <;> subst h <;> simp [Operation.eval]

theorem eval_refl_false (op : Operation) (x m : Nat)
    (hop : op = Operation.Neq ∨ op = Operation.Lt ∨ op = Operation.Gt) :
    op.eval x x m = some 0 := by
  rcases hop with h | h | h <;> subst h <;> simp [Operation.eval]

/-- `tree_shake` preserves evaluation: the surviving nodes evaluate to the
values the corresponding original nodes had, and in particular every
(renumbered) output keeps its value. -/
theorem shake_preserves (g g' : Graph) (o o' : List Nat) (v : List Nat)
    (h : g.tree_shake o = some (g', o'))
    (hv : evalNodes g.modulus g.inputs g.nodes = some v) :
    ∃ v', evalNodes g'.modulus g'.inputs g'.nodes = some v' ∧
      o'.length = o.length ∧
      ∀ (k x y : Nat), o[k]? = some x → o'[k]? = some y →
        v'[y]? = v[x]? := by
  obtain ⟨hvld, used0, hmo, hn, ho, hinp, hmod⟩ := tree_shake_inv g o g' o' h
  have hvalid := (is_valid_iff g).mp hvld
  have hulen := shake_used_length g o used0 hmo
  set used := markLoop g.nodes g.nodes.length used0 with hused
  obtain ⟨hvlen, heqs⟩ := evalNodes_spec g.modulus g.inputs g.nodes v hv
  have hvulen : used.length = v.length := by rw [hulen, hvlen]
  have hu0len : used0.length = g.nodes.length := by
    rw [markOutputs_length _ _ _ _ hmo, List.length_replicate]
  have hclosure := markLoop_closure g.nodes hvalid g.nodes.length used0
    (by omega)
  refine ⟨keep v used, ?_, omap_length _ _ _ ho, ?_⟩
  · rw [hinp, hmod]
    have hklen : (keep v used).length = g'.nodes.length := by
      have h1 : (keep v used).length = used.count true :=
        keep_length v used hvulen
      have h2 : (keep g.nodes used).length = used.count true :=
        keep_length g.nodes used hulen
      have h3 : g'.nodes.length = (keep g.nodes used).length :=
        omap_length _ _ _ hn
      omega
    apply evalNodes_sim g.modulus g.inputs g'.nodes (keep v used) hklen.symm
    intro j nd1 hj
    obtain ⟨i, hi, hu, hc, hne, hrn⟩ :=
      shake_kept_src g used hulen g'.nodes hn j nd1 hj
    cases hnd : g.nodes[i]? with
    | none => exact absurd hnd hne
    | some nd =>
      rw [hnd] at hrn
      simp only [Option.getD_some] at hrn
      obtain ⟨x, hx1, hx2⟩ := heqs i nd hnd
      have hkv : (keep v used)[j]? = some x := by
        rw [← hc, keep_idx v used i hvulen hu, hx1]
      cases nd with
      | Constant c =>
        simp only [renumNode, Option.some.injEq] at hrn
        subst hrn
        exact ⟨x, hkv, hx2⟩
      | Input k =>
        simp only [renumNode, Option.some.injEq] at hrn
        subst hrn
        exact ⟨x, hkv, hx2⟩
      | Op op a b =>
        simp only [renumNode] at hrn
        cases hra : renum used a with
        | none => rw [hra] at hrn; simp at hrn
        | some a2 =>
          cases hrb : renum used b with
          | none => rw [hra, hrb] at hrn; simp at hrn
          | some b2 =>
            rw [hra, hrb] at hrn
            simp only [Option.some.injEq] at hrn
            subst hrn
            obtain ⟨hua, hra'⟩ := renum_some used a _ hra
            obtain ⟨hub, hrb'⟩ := renum_some used b _ hrb
            obtain ⟨hab1, hab2⟩ := hvalid i op a b hnd
            obtain ⟨va, vb, hva, hvb, hev⟩ :=
              nodeValue_op g.modulus g.inputs (v.take i) op a b x hx2
            obtain ⟨_, hva'⟩ := getElem?_of_take v i a va hva
            obtain ⟨_, hvb'⟩ := getElem?_of_take v i b vb hvb
            have ha2 : a2 < j := by
              rw [hra', ← hc]
              exact count_take_lt used a i hab1 hua
            have hb2 : b2 < j := by
              rw [hrb', ← hc]
              exact count_take_lt used b i hab2 hub
            refine ⟨x, hkv, ?_⟩
            have hka : (keep v used)[a2]? = some va := by
              rw [hra', keep_idx v used a hvulen hua, hva']
            have hkb : (keep v used)[b2]? = some vb := by
              rw [hrb', keep_idx v used b hvulen hub, hvb']
            simp only [nodeValue, getElem?_take_lt _ _ _ ha2,
              getElem?_take_lt _ _ _ hb2, hka, hkb]
            exact hev
  · intro k x y hx hy
    obtain ⟨y', hy', hry⟩ := omap_idx _ _ _ ho k x hx
    rw [hy'] at hy
    simp only [Option.some.injEq] at hy
    subst hy
    obtain ⟨hux, hry'⟩ := renum_some used x _ hry
    rw [hry', keep_idx v used x hvulen hux]

theorem tautFold_eval (op : Operation) (c : Bool) (x m : Nat)
    (h : tautFold op = some c) : op.eval x x m = some (cond c 1 0) := by
  cases op <;> simp_all [tautFold, Operation.eval]

/-- Rewriting position `i` to the constant that is its true value keeps
every node's evaluation equation intact. -/
theorem eqs_set (m : Nat) (inputs v : List Nat) (ns : List Node)
    (i : Nat) (w : Nat)
    (peqs : ∀ (j : Nat) (nd : Node), ns[j]? = some nd →
      ∃ x, v[j]? = some x ∧ nodeValue m inputs (v.take j) nd = some x)
    (hvi : v[i]? = some w) :
    ∀ (j : Nat) (nd : Node), (ns.set i (Node.Constant w))[j]? = some nd →
      ∃ x, v[j]? = some x ∧ nodeValue m inputs (v.take j) nd = some x := by
  intro j nd hj
  by_cases hji : i = j
  · subst hji
    rw [List.getElem?_set_self'] at hj
    cases hn : ns[i]? with
    | none => rw [hn] at hj; simp at hj
    | some nd0 =>
      rw [hn] at hj
      simp only [Option.map_eq_map, Option.map_some', Option.some.injEq,
        Function.const_apply] at hj
      subst hj
      exact ⟨w, hvi, rfl⟩
  · rw [List.getElem?_set_ne hji] at hj
    exact peqs j nd hj

/-- One `propagate` step keeps the per-node evaluation equations. -/
theorem propStep_pres (m : Nat) (inputs v : List Nat) (ns ns' : List Node)
    (i : Nat) (hf : propStep m ns i = some ns')
    (peqs : ∀ (j : Nat) (nd : Node), ns[j]? = some nd →
      ∃ x, v[j]? = some x ∧ nodeValue m inputs (v.take j) nd = some x) :
    ∀ (j : Nat) (nd : Node), ns'[j]? = some nd →
      ∃ x, v[j]? = some x ∧ nodeValue m inputs (v.take j) nd = some x := by
  unfold propStep at hf
  cases hni : ns[i]? with
  | none =>
    rw [hni] at hf
    have hf2 : some ns = some ns' := hf
    simp only [Option.some.injEq] at hf2
    subst hf2
    exact peqs
  | some nd0 =>
    rw [hni] at hf
    cases nd0 with
    | Input k =>
      have hf2 : some ns = some ns' := hf
      simp only [Option.some.injEq] at hf2
      subst hf2
      exact peqs
    | Constant c =>
      have hf2 : some ns = some ns' := hf
      simp only [Option.some.injEq] at hf2
      subst hf2
      exact peqs
    | Op op a b =>
      replace hf : (match ns[a]?, ns[b]? with
        | some na, some nb =>
          match na, nb with
          | Node.Constant va, Node.Constant vb =>
            match op.eval va vb m with
            | some w => some (ns.set i (Node.Constant w))
            | none => none
          | _, _ =>
            if a = b then
              match tautFold op with
              | some c => some (ns.set i (Node.Constant (cond c 1 0)))
              | none => some ns
            else some ns
        | _, _ => none) = some ns' := hf
      obtain ⟨x, hxv, hxe⟩ := peqs i (Node.Op op a b) hni
      obtain ⟨va, vb, hva, hvb, hev⟩ :=
        nodeValue_op m inputs (v.take i) op a b x hxe
      obtain ⟨hai, hva'⟩ := getElem?_of_take v i a va hva
      obtain ⟨hbi, hvb'⟩ := getElem?_of_take v i b vb hvb
      cases hna : ns[a]? with
      | none => rw [hna] at hf; simp at hf
      | some na =>
        cases hnb : ns[b]? with
        | none => rw [hna, hnb] at hf; simp at hf
        | some nb =>
          rw [hna, hnb] at hf
          suffices helse : (if a = b then
              match tautFold op with
              | some c => some (ns.set i (Node.Constant (cond c 1 0)))
              | none => some ns
            else some ns) = some ns' →
              ∀ (j : Nat) (nd : Node), ns'[j]? = some nd →
                ∃ x, v[j]? = some x ∧
                  nodeValue m inputs (v.take j) nd = some x by
            cases na with
            | Constant ca =>
              cases nb with
              | Constant cb =>
                -- the constant-folding branch
                obtain ⟨xa, hxa, hxa2⟩ := peqs a (Node.Constant ca) hna
                obtain ⟨xb, hxb, hxb2⟩ := peqs b (Node.Constant cb) hnb
                simp only [nodeValue, Option.some.injEq] at hxa2 hxb2
                rw [hva'] at hxa
                rw [hvb'] at hxb
                simp only [Option.some.injEq] at hxa hxb
                have hca : ca = va := by rw [hxa2, hxa]
                have hcb : cb = vb := by rw [hxb2, hxb]
                have hf2 : (match op.eval ca cb m with
                    | some w => some (ns.set i (Node.Constant w))
                    | none => none) = some ns' := hf
                rw [hca, hcb, hev] at hf2
                simp only [Option.some.injEq] at hf2
                subst hf2
                exact eqs_set m inputs v ns i x peqs hxv
              | Input k => exact helse hf
              | Op op2 a2 b2 => exact helse hf
            | Input k => exact helse hf
            | Op op2 a2 b2 => exact helse hf
          intro hf' j nd hj
          split at hf'
          · rename_i hab
            subst hab
            cases hft : tautFold op with
            | none =>
              rw [hft] at hf'
              simp only [Option.some.injEq] at hf'
              subst hf'
              exact peqs j nd hj
            | some c =>
              rw [hft] at hf'
              simp only [Option.some.injEq] at hf'
              subst hf'
              have hvv : va = vb := by
                rw [hva'] at hvb'
                simpa using hvb'
              have hxc : x = cond c 1 0 := by
                rw [hvv] at hev
                rw [tautFold_eval op c vb m hft] at hev
                simpa using hev.symm
              have hvi : v[i]? = some (cond c 1 0) := by
                rw [← hxc]
                exact hxv
              exact eqs_set m inputs v ns i (cond c 1 0) peqs hvi j nd hj
          · simp only [Option.some.injEq] at hf'
            subst hf'
            exact peqs j nd hj

/-- `propagate` preserves evaluation: the folded graph evaluates to
exactly the same value list. -/
theorem propagate_preserves (g g' : Graph) (v : List Nat)
    (h : g.propagate = some g')
    (hv : evalNodes g.modulus g.inputs g.nodes = some v) :
    evalNodes g'.modulus g'.inputs g'.nodes = some v := by
  obtain ⟨hvld, hloop, hinp, hmod⟩ := propagate_inv g g' h
  obtain ⟨hvlen, heqs⟩ := evalNodes_spec g.modulus g.inputs g.nodes v hv
  rw [hinp, hmod]
  have hlen : g'.nodes.length = g.nodes.length :=
    stepLoop_length _ (propStep_shape g.modulus) _ _ _ _ hloop
  have hfinal := stepLoop_inv (propStep g.modulus)
    (fun ns => ∀ (j : Nat) (nd : Node), ns[j]? = some nd →
      ∃ x, v[j]? = some x ∧
        nodeValue g.modulus g.inputs (v.take j) nd = some x)
    (fun ns i ns' hf hp => propStep_pres g.modulus g.inputs v ns ns' i hf hp)
    g.nodes.length 0 g.nodes g'.nodes hloop heqs
  exact evalNodes_sim g.modulus g.inputs g'.nodes v (by omega) hfinal

/-- A renumber-table lookup of `value_numbering` points at an earlier
position holding the same sample; under sample-faithfulness the true
values agree. -/
theorem vn_renum (s v : List Nat)
    (H : ∀ (i j : Nat), i < s.length → j < s.length →
      s[i]? = s[j]? → v[i]? = v[j]?)
    (x y : Nat)
    (hr : (s.map (fun w => s.findIdx (fun z => z == w)))[x]? = some y) :
    y ≤ x ∧ v[y]? = v[x]? := by
  rw [List.getElem?_map] at hr
  cases hs : s[x]? with
  | none => rw [hs] at hr; simp at hr
  | some vx =>
    rw [hs] at hr
    simp only [Option.map_some', Option.some.injEq] at hr
    have hxlen : x < s.length := (List.getElem?_eq_some_iff.mp hs).1
    have hy : y ≤ x := by
      rw [← hr]
      exact findIdx_le_of_getElem _ s x vx hs (by simp)
    have hylen : y < s.length := by omega
    obtain ⟨w, hw, hwp⟩ := findIdx_found (fun z => z == vx) s (by omega)
    rw [hr] at hw
    simp only [beq_iff_eq] at hwp
    subst hwp
    refine ⟨hy, H y x hylen hxlen ?_⟩
    rw [hw, hs]

/-- `value_numbering` preserves evaluation whenever positions with equal
samples have equal true values (the Schwartz–Zippel assumption). -/
theorem value_numbering_preserves (g g' : Graph) (o o' : List Nat)
    (t : Tape) (v s : List Nat)
    (h : g.value_numbering o t = some (g', o'))
    (hv : evalNodes g.modulus g.inputs g.nodes = some v)
    (hs : randomEval g t = some s)
    (H : ∀ (i j : Nat), i < s.length → j < s.length →
      s[i]? = s[j]? → v[i]? = v[j]?) :
    evalNodes g'.modulus g'.inputs g'.nodes = some v ∧
    o'.length = o.length ∧
    ∀ (k x y : Nat), o[k]? = some x → o'[k]? = some y →
      v[y]? = v[x]? := by
  obtain ⟨hvld, values, hval, hn, ho, hinp, hmod⟩ :=
    value_numbering_inv g o t g' o' h
  rw [hval] at hs
  simp only [Option.some.injEq] at hs
  rw [hs] at hn ho
  obtain ⟨hvlen, heqs⟩ := evalNodes_spec g.modulus g.inputs g.nodes v hv
  have hnlen : g'.nodes.length = g.nodes.length := omap_length _ _ _ hn
  refine ⟨?_, omap_length _ _ _ ho, ?_⟩
  · rw [hinp, hmod]
    apply evalNodes_sim g.modulus g.inputs g'.nodes v (by omega)
    intro j nd1 hj
    obtain ⟨nd, hnd, hrn⟩ := omap_idx_rev _ _ _ hn j nd1 hj
    cases nd with
    | Input k =>
      simp only [Option.some.injEq] at hrn
      subst hrn
      exact heqs j _ hnd
    | Constant c =>
      simp only [Option.some.injEq] at hrn
      subst hrn
      exact heqs j _ hnd
    | Op op a b =>
      simp only [] at hrn
      cases hra : (s.map (fun w => s.findIdx (fun z => z == w)))[a]? with
      | none => rw [hra] at hrn; simp at hrn
      | some a2 =>
        cases hrb : (s.map (fun w => s.findIdx (fun z => z == w)))[b]? with
        | none => rw [hra, hrb] at hrn; simp at hrn
        | some b2 =>
          rw [hra, hrb] at hrn
          simp only [Option.some.injEq] at hrn
          subst hrn
          obtain ⟨x, hxv, hxe⟩ := heqs j (Node.Op op a b) hnd
          obtain ⟨va, vb, hva, hvb, hev⟩ :=
            nodeValue_op g.modulus g.inputs (v.take j) op a b x hxe
          obtain ⟨haj, hva'⟩ := getElem?_of_take v j a va hva
          obtain ⟨hbj, hvb'⟩ := getElem?_of_take v j b vb hvb
          obtain ⟨ha2, hva2⟩ := vn_renum s v H a a2 hra
          obtain ⟨hb2, hvb2⟩ := vn_renum s v H b b2 hrb
          refine ⟨x, hxv, ?_⟩
          have hka : v[a2]? = some va := by rw [hva2, hva']
          have hkb : v[b2]? = some vb := by rw [hvb2, hvb']
          simp only [nodeValue, getElem?_take_lt _ _ _ (by omega : a2 < j),
            getElem?_take_lt _ _ _ (by omega : b2 < j), hka, hkb]
          exact hev
  · intro k x y hx hy
    obtain ⟨y', hy', hry⟩ := omap_idx _ _ _ ho k x hx
    rw [hy'] at hy
    simp only [Option.some.injEq] at hy
    subst hy
    exact (vn_renum s v H x y' hry).2

/-- One `constants` step keeps the per-node evaluation equations, given
that cross-trial agreement certifies the true value. -/
theorem constStep_pres (m : Nat) (inputs v sa sb : List Nat)
    (ns ns' : List Node) (i : Nat)
    (hf : constStep sa sb ns i = some ns')
    (H : ∀ (k : Nat), k < sa.length → sa[k]? = sb[k]? → v[k]? = sa[k]?)
    (peqs : ∀ (j : Nat) (nd : Node), ns[j]? = some nd →
      ∃ x, v[j]? = some x ∧ nodeValue m inputs (v.take j) nd = some x) :
    ∀ (j : Nat) (nd : Node), ns'[j]? = some nd →
      ∃ x, v[j]? = some x ∧ nodeValue m inputs (v.take j) nd = some x := by
  unfold constStep at hf
  cases hni : ns[i]? with
  | none =>
    rw [hni] at hf
    have hf2 : some ns = some ns' := hf
    simp only [Option.some.injEq] at hf2
    subst hf2
    exact peqs
  | some nd0 =>
    rw [hni] at hf
    cases nd0 with
    | Constant c =>
      have hf2 : some ns = some ns' := hf
      simp only [Option.some.injEq] at hf2
      subst hf2
      exact peqs
    | Input k =>
      replace hf : (match sa[i]?, sb[i]? with
        | some x, some y =>
          if x = y then some (ns.set i (Node.Constant x)) else some ns
        | _, _ => none) = some ns' := hf
      cases hsa' : sa[i]? with
      | none => rw [hsa'] at hf; simp at hf
      | some x =>
        cases hsb' : sb[i]? with
        | none => rw [hsa', hsb'] at hf; simp at hf
        | some y =>
          rw [hsa', hsb'] at hf
          replace hf : (if x = y then some (ns.set i (Node.Constant x))
            else some ns) = some ns' := hf
          split at hf
          · rename_i hxy
            subst hxy
            simp only [Option.some.injEq] at hf
            subst hf
            have hvi : v[i]? = some x := by
              rw [H i (List.getElem?_eq_some_iff.mp hsa').1
                (by rw [hsa', hsb']), hsa']
            exact eqs_set m inputs v ns i x peqs hvi
          · simp only [Option.some.injEq] at hf
            subst hf
            exact peqs
    | Op op a b =>
      replace hf : (match sa[i]?, sb[i]? with
        | some x, some y =>
          if x = y then some (ns.set i (Node.Constant x)) else some ns
        | _, _ => none) = some ns' := hf
      cases hsa' : sa[i]? with
      | none => rw [hsa'] at hf; simp at hf
      | some x =>
        cases hsb' : sb[i]? with
        | none => rw [hsa', hsb'] at hf; simp at hf
        | some y =>
          rw [hsa', hsb'] at hf
          replace hf : (if x = y then some (ns.set i (Node.Constant x))
            else some ns) = some ns' := hf
          split at hf
          · rename_i hxy
            subst hxy
            simp only [Option.some.injEq] at hf
            subst hf
            have hvi : v[i]? = some x := by
              rw [H i (List.getElem?_eq_some_iff.mp hsa').1
                (by rw [hsa', hsb']), hsa']
            exact eqs_set m inputs v ns i x peqs hvi
          · simp only [Option.some.injEq] at hf
            subst hf
            exact peqs

/-- `constants` preserves evaluation whenever every cross-trial agreement
certifies the true value (the two-trial Schwartz–Zippel assumption). -/
theorem constants_preserves (g g' : Graph) (t1 t2 : Tape)
    (v sa sb : List Nat)
    (h : g.constants t1 t2 = some g')
    (hv : evalNodes g.modulus g.inputs g.nodes = some v)
    (hsa : randomEval g t1 = some sa)
    (hsb : randomEval g t2 = some sb)
    (H : ∀ (k : Nat), k < sa.length → sa[k]? = sb[k]? → v[k]? = sa[k]?) :
    evalNodes g'.modulus g'.inputs g'.nodes = some v := by
  obtain ⟨hvld, sa', sb', hsa', hsb', hloop, hinp, hmod⟩ :=
    constants_inv g t1 t2 g' h
  rw [hsa'] at hsa
  rw [hsb'] at hsb
  simp only [Option.some.injEq] at hsa hsb
  rw [hsa] at hloop
  rw [hsb] at hloop
  obtain ⟨hvlen, heqs⟩ := evalNodes_spec g.modulus g.inputs g.nodes v hv
  rw [hinp, hmod]
  have hlen : g'.nodes.length = g.nodes.length :=
    stepLoop_length _ (constStep_shape sa sb) _ _ _ _ hloop
  have hfinal := stepLoop_inv (constStep sa sb)
    (fun ns => ∀ (j : Nat) (nd : Node), ns[j]? = some nd →
      ∃ x, v[j]? = some x ∧
        nodeValue g.modulus g.inputs (v.take j) nd = some x)
    (fun ns i ns' hf hp =>
      constStep_pres g.modulus g.inputs v sa sb ns ns' i hf H hp)
    g.nodes.length 0 g.nodes g'.nodes hloop heqs
  exact evalNodes_sim g.modulus g.inputs g'.nodes v (by omega) hfinal

/-! ### Boundedness of `random_eval` -/

/-- With a positive modulus and all constants reduced, `random_eval`
always succeeds and every sample it produces is below the modulus. -/
theorem randomEval_bounded (m : Nat) (t : Tape) (hm : 0 < m) :
    ∀ (nodes : List Node) (k : Nat) (vs : List Nat), vs.length = k →
      (∀ x ∈ vs, x < m) →
      (∀ (j : Nat) (op : Operation) (a b : Nat),
        nodes[j]? = some (Node.Op op a b) → a < k + j ∧ b < k + j) →
      (∀ (j : Nat) (c : Nat), nodes[j]? = some (Node.Constant c) → c < m) →
      ∃ out, genEvalAux (nodeSample m t) nodes vs = some out ∧
        ∀ x ∈ out, x < m := by
  intro nodes
  induction nodes with
  | nil => intro k vs _ hb _ _; exact ⟨vs, rfl, hb⟩
  | cons nd rest ih =>
    intro k vs hk hb hvalid hconst
    have hstep : ∃ x, nodeSample m t vs nd = some x ∧ x < m := by
      cases nd with
      | Constant c =>
        exact ⟨c, rfl, hconst 0 c (by simp)⟩
      | Input i =>
        refine ⟨t.inputTape i % m, ?_, Nat.mod_lt _ hm⟩
        simp [nodeSample, Nat.pos_iff_ne_zero.mp hm]
      | Op op a b =>
        obtain ⟨hab1, hab2⟩ := hvalid 0 op a b (by simp)
        simp only [Nat.add_zero] at hab1 hab2
        have hale : a < vs.length := by omega
        have hble : b < vs.length := by omega
        cases hva : vs[a]? with
        | none =>
          rw [List.getElem?_eq_none_iff] at hva
          omega
        | some va =>
        cases hvb : vs[b]? with
        | none =>
          rw [List.getElem?_eq_none_iff] at hvb
          omega
        | some vb =>
        have hvam : va < m := hb va (List.getElem?_mem hva)
        have hvbm : vb < m := hb vb (List.getElem?_mem hvb)
        have hm' : ¬ m = 0 := Nat.pos_iff_ne_zero.mp hm
        cases op with
        | Add =>
          refine ⟨addMod va vb m, ?_, ?_⟩
          · simp [nodeSample, hva, hvb, Operation.eval]
          · simp [addMod, hm', Nat.mod_lt _ hm]
        | Sub =>
          refine ⟨addMod va (m - vb) m, ?_, ?_⟩
          · simp [nodeSample, hva, hvb, Operation.eval, usub,
              Nat.le_of_lt hvbm]
          · simp [addMod, hm', Nat.mod_lt _ hm]
        | Mul =>
          refine ⟨mulMod va vb m, ?_, ?_⟩
          · simp [nodeSample, hva, hvb, Operation.eval]
          · simp [mulMod, hm', Nat.mod_lt _ hm]
        | MMul =>
          exact ⟨t.prfTape (Operation.MMul, va, vb) % m,
            by simp [nodeSample, hva, hvb, hm'], Nat.mod_lt _ hm⟩
        | Eq =>
          exact ⟨t.prfTape (Operation.Eq, va, vb) % m,
            by simp [nodeSample, hva, hvb, hm'], Nat.mod_lt _ hm⟩
        | Neq =>
          exact ⟨t.prfTape (Operation.Neq, va, vb) % m,
            by simp [nodeSample, hva, hvb, hm'], Nat.mod_lt _ hm⟩
        | Lt =>
          exact ⟨t.prfTape (Operation.Lt, va, vb) % m,
            by simp [nodeSample, hva, hvb, hm'], Nat.mod_lt _ hm⟩
        | Gt =>
          exact ⟨t.prfTape (Operation.Gt, va, vb) % m,
            by simp [nodeSample, hva, hvb, hm'], Nat.mod_lt _ hm⟩
        | Leq =>
          exact ⟨t.prfTape (Operation.Leq, va, vb) % m,
            by simp [nodeSample, hva, hvb, hm'], Nat.mod_lt _ hm⟩
        | Geq =>
          exact ⟨t.prfTape (Operation.Geq, va, vb) % m,
            by simp [nodeSample, hva, hvb, hm'], Nat.mod_lt _ hm⟩
        | Lor =>
          exact ⟨t.prfTape (Operation.Lor, va, vb) % m,
            by simp [nodeSample, hva, hvb, hm'], Nat.mod_lt _ hm⟩
        | Shl =>
          exact ⟨t.prfTape (Operation.Shl, va, vb) % m,
            by simp [nodeSample, hva, hvb, hm'], Nat.mod_lt _ hm⟩
        | Shr =>
          exact ⟨t.prfTape (Operation.Shr, va, vb) % m,
            by simp [nodeSample, hva, hvb, hm'], Nat.mod_lt _ hm⟩
        | Band =>
          exact ⟨t.prfTape (Operation.Band, va, vb) % m,
            by simp [nodeSample, hva, hvb, hm'], Nat.mod_lt _ hm⟩
    obtain ⟨x, hx, hxm⟩ := hstep
    simp only [genEvalAux, hx]
    apply ih (k + 1) (vs ++ [x]) (by simp [hk]) ?_ ?_ ?_
    · intro y hy
      rcases List.mem_append.mp hy with hy | hy
      · exact hb y hy
      · simp at hy
        subst hy
        exact hxm
    · intro j op a b hj
      have := hvalid (j + 1) op a b (by simpa using hj)
      omega
    · intro j c hj
      exact hconst (j + 1) c (by simpa using hj)

/-- A `Sub` node with both operands equal always samples to `0` when all
samples are reduced below the modulus. -/
theorem sub_self_sample_zero (m : Nat) (t : Tape) (nodes : List Node)
    (s : List Nat) (i x : Nat)
    (hs : genEvalAux (nodeSample m t) nodes [] = some s)
    (hbound : ∀ y ∈ s, y < m)
    (hnd : nodes[i]? = some (Node.Op Operation.Sub x x)) :
    s[i]? = some 0 := by
  obtain ⟨w, hw, hws⟩ := genEvalAux_spec _ nodes [] s hs i _ hnd
  simp only [List.length_nil, Nat.zero_add] at hw hws
  cases hvx : (s.take i)[x]? with
  | none => simp [nodeSample, hvx] at hws
  | some vx =>
    have hvxm : vx < m :=
      hbound vx (List.getElem?_mem (getElem?_of_take s i x vx hvx).2)
    have hws2 : Operation.eval Operation.Sub vx vx m = some w := by
      simpa [nodeSample, hvx] using hws
    simp only [Operation.eval, usub, Nat.le_of_lt hvxm, if_pos] at hws2
    have hmz : ¬ m = 0 := by omega
    rw [hw]
    simp only [addMod, hmz, if_neg] at hws2
    rw [Nat.add_sub_cancel' (Nat.le_of_lt hvxm)] at hws2
    simp only [Nat.mod_self] at hws2
    rw [← hws2]
    simp

/-- Running the `constants` loop on a graph whose trials agree with value
`w` at a non-constant position `i` plants `Constant w` there. -/
theorem constLoop_plants (sa sb : List Nat) (nodes : List Node)
    (nodes' : List Node) (i : Nat) (w : Nat)
    (h : stepLoop (constStep sa sb) 0 nodes.length nodes = some nodes')
    (hop : ∃ op a b, nodes[i]? = some (Node.Op op a b))
    (hsa : sa[i]? = some w) (hsb : sb[i]? = some w) :
    nodes'[i]? = some (Node.Constant w) := by
  obtain ⟨op, a, b, hnd⟩ := hop
  have hloc : ∀ ns k ns' (j : Nat), constStep sa sb ns k = some ns' →
      j ≠ k → ns'[j]? = ns[j]? := by
    intro ns k ns' j hf hjk
    rcases constStep_shape sa sb ns k ns' hf with h1 | ⟨v, h1⟩
    · rw [h1]
    · rw [h1, List.getElem?_set_ne (by omega)]
  have hilen : i < nodes.length := (List.getElem?_eq_some_iff.mp hnd).1
  have hsplit := stepLoop_split (constStep sa sb) i (nodes.length - i) 0 nodes
  rw [Nat.add_sub_cancel' (Nat.le_of_lt hilen)] at hsplit
  rw [hsplit] at h
  cases h0 : stepLoop (constStep sa sb) 0 i nodes with
  | none => rw [h0] at h; simp at h
  | some ns0 =>
    rw [h0] at h
    replace h : stepLoop (constStep sa sb) (0 + i) (nodes.length - i) ns0 =
      some nodes' := h
    rw [Nat.zero_add] at h
    have hfr0 : ns0[i]? = nodes[i]? :=
      stepLoop_frame _ hloc i 0 nodes ns0 h0 i (by omega)
    have hstep : constStep sa sb ns0 i = some (ns0.set i (Node.Constant w)) := by
      unfold constStep
      rw [hfr0, hnd, hsa, hsb]
      simp
    have hlen0 : ns0.length = nodes.length := by
      have := stepLoop_inv (constStep sa sb)
        (fun ns => ns.length = nodes.length) ?_ i 0 nodes ns0 h0 rfl
      · exact this
      · intro ns k ns' hf hp
        rcases constStep_shape sa sb ns k ns' hf with h1 | ⟨v, h1⟩
        · rw [h1]; exact hp
        · rw [h1, List.length_set]; exact hp
    cases hrest : nodes.length - i with
    | zero => omega
    | succ fl =>
      rw [hrest] at h
      replace h : (match constStep sa sb ns0 i with
          | some ns => stepLoop (constStep sa sb) (i + 1) fl ns
          | none => none) = some nodes' := h
      rw [hstep] at h
      replace h : stepLoop (constStep sa sb) (i + 1) fl
        (ns0.set i (Node.Constant w)) = some nodes' := h
      have hfr1 := stepLoop_frame _ hloc fl (i + 1)
        (ns0.set i (Node.Constant w)) nodes' h i (by omega)
      rw [hfr1]
      exact List.getElem?_set_eq_of_lt _ (by omega)

/-- The `constants` pass on a valid graph with a positive modulus and all
constants reduced: it succeeds, and any `Op(Sub, x, x)` node becomes
`Constant 0`, whatever the random draws were. -/
theorem constants_sub_self (g : Graph) (t1 t2 : Tape) (i x : Nat)
    (hvld : g.is_valid = true) (hm : 0 < g.modulus)
    (hconst : ∀ (j : Nat) (c : Nat),
      g.nodes[j]? = some (Node.Constant c) → c < g.modulus)
    (hnd : g.nodes[i]? = some (Node.Op Operation.Sub x x)) :
    ∃ g', g.constants t1 t2 = some g' ∧
      g'.nodes[i]? = some (Node.Constant 0) := by
  have hvalid := (is_valid_iff g).mp hvld
  obtain ⟨sa, hsa, hsab⟩ := randomEval_bounded g.modulus t1 hm g.nodes 0 []
    rfl (by simp) (fun j op a b hj => by
      have := hvalid j op a b hj
      omega) hconst
  obtain ⟨sb, hsb, hsbb⟩ := randomEval_bounded g.modulus t2 hm g.nodes 0 []
    rfl (by simp) (fun j op a b hj => by
      have := hvalid j op a b hj
      omega) hconst
  have hsalen : sa.length = g.nodes.length := by
    simpa using genEvalAux_length _ _ _ _ hsa
  have hsblen : sb.length = g.nodes.length := by
    simpa using genEvalAux_length _ _ _ _ hsb
  have hsa0 : sa[i]? = some 0 :=
    sub_self_sample_zero g.modulus t1 g.nodes sa i x hsa hsab hnd
  have hsb0 : sb[i]? = some 0 :=
    sub_self_sample_zero g.modulus t2 g.nodes sb i x hsb hsbb hnd
  have hstep_tot : ∀ (ns : List Node) (k : Nat),
      ns.length = g.nodes.length → ∃ ns', constStep sa sb ns k = some ns' := by
    intro ns k hp
    cases hnk : ns[k]? with
    | none => exact ⟨ns, by unfold constStep; rw [hnk]⟩
    | some nd =>
      have hklen : k < ns.length := (List.getElem?_eq_some_iff.mp hnk).1
      cases hska : sa[k]? with
      | none =>
        rw [List.getElem?_eq_none_iff] at hska
        omega
      | some xa =>
        cases hskb : sb[k]? with
        | none =>
          rw [List.getElem?_eq_none_iff] at hskb
          omega
        | some xb =>
          cases nd with
          | Constant c => exact ⟨ns, by unfold constStep; rw [hnk]⟩
          | Input j =>
            by_cases hxy : xa = xb
            · refine ⟨ns.set k (Node.Constant xa), ?_⟩
              unfold constStep
              rw [hnk]
              show (match sa[k]?, sb[k]? with
                | some x, some y =>
                  if x = y then some (ns.set k (Node.Constant x))
                  else some ns
                | _, _ => none) = _
              rw [hska, hskb]
              show (if xa = xb then some (ns.set k (Node.Constant xa))
                else some ns) = _
              rw [if_pos hxy]
            · refine ⟨ns, ?_⟩
              unfold constStep
              rw [hnk]
              show (match sa[k]?, sb[k]? with
                | some x, some y =>
                  if x = y then some (ns.set k (Node.Constant x))
                  else some ns
                | _, _ => none) = _
              rw [hska, hskb]
              show (if xa = xb then some (ns.set k (Node.Constant xa))
                else some ns) = _
              rw [if_neg hxy]
          | Op op a b =>
            by_cases hxy : xa = xb
            · refine ⟨ns.set k (Node.Constant xa), ?_⟩
              unfold constStep
              rw [hnk]
              show (match sa[k]?, sb[k]? with
                | some x, some y =>
                  if x = y then some (ns.set k (Node.Constant x))
                  else some ns
                | _, _ => none) = _
              rw [hska, hskb]
              show (if xa = xb then some (ns.set k (Node.Constant xa))
                else some ns) = _
              rw [if_pos hxy]
            · refine ⟨ns, ?_⟩
              unfold constStep
              rw [hnk]
              show (match sa[k]?, sb[k]? with
                | some x, some y =>
                  if x = y then some (ns.set k (Node.Constant x))
                  else some ns
                | _, _ => none) = _
              rw [hska, hskb]
              show (if xa = xb then some (ns.set k (Node.Constant xa))
                else some ns) = _
              rw [if_neg hxy]
  obtain ⟨ns', hloop⟩ := stepLoop_some (constStep sa sb)
    (fun ns => ns.length = g.nodes.length)
    (fun ns k ns' hf hp => by
      rcases constStep_shape sa sb ns k ns' hf with h1 | ⟨v, h1⟩
      · rw [h1]; exact hp
      · rw [h1, List.length_set]; exact hp)
    (fun ns k hp => hstep_tot ns k hp)
    g.nodes.length 0 g.nodes rfl
  refine ⟨{ g with nodes := ns' }, ?_, ?_⟩
  · unfold Graph.constants
    rw [if_pos hvld]
    rw [show randomEval g t1 = some sa from hsa,
      show randomEval g t2 = some sb from hsb]
    show (match stepLoop (constStep sa sb) 0 g.nodes.length g.nodes with
      | some ns => some { g with nodes := ns }
      | none => none) = some { g with nodes := ns' }
    rw [hloop]
  · exact constLoop_plants sa sb g.nodes ns' i 0 hloop ⟨_, _, _, hnd⟩ hsa0 hsb0

/-! ### Idempotence of `tree_shake` -/

/-- C4: dead-code elimination is idempotent.  After one `tree_shake`,
every node of the shrunken graph is live for the rewritten outputs, so a
second call with the same (already rewritten) outputs returns the node
sequence and the outputs unchanged. -/
theorem tree_shake_idempotent (g g1 : Graph) (o o1 : List Nat)
    (h : g.tree_shake o = some (g1, o1)) :
    g1.tree_shake o1 = some (g1, o1) := by
  obtain ⟨hvld, used0, hmo, hn, ho, hinp, hmod⟩ := tree_shake_inv g o g1 o1 h
  have hvalid := (is_valid_iff g).mp hvld
  have hvld1 := shake_valid g o g1 o1 h
  have hvalid1 := (is_valid_iff g1).mp hvld1
  have hulen := shake_used_length g o used0 hmo
  set used := markLoop g.nodes g.nodes.length used0 with hused
  have hu0len : used0.length = g.nodes.length := by
    rw [markOutputs_length _ _ _ _ hmo, List.length_replicate]
  have hn1eq : g1.nodes.length = used.count true := by
    rw [omap_length _ _ _ hn, keep_length g.nodes used hulen]
  have hko : ∀ y ∈ o1, y < g1.nodes.length := by
    intro y hy
    obtain ⟨k, hk⟩ := List.mem_iff_getElem?.mp hy
    obtain ⟨x, hx, hrx⟩ := omap_idx_rev _ _ _ ho k y hk
    obtain ⟨hux, hyeq⟩ := renum_some used x _ hrx
    rw [hn1eq, hyeq]
    exact count_take_lt_total used x hux
  obtain ⟨u0', hmo'⟩ := markOutputs_some g1.nodes.length o1
    (List.replicate g1.nodes.length false) hko
  have hu0'len : u0'.length = g1.nodes.length := by
    rw [markOutputs_length _ _ _ _ hmo', List.length_replicate]
  set used' := markLoop g1.nodes g1.nodes.length u0' with hused'
  have hulen' : used'.length = g1.nodes.length := by
    rw [hused', markLoop_length, hu0'len]
  -- every live original position stays live in the second marking
  have B : ∀ (d : Nat) (i : Nat), g.nodes.length - i ≤ d →
      used[i]? = some true →
      used'[(used.take i).count true]? = some true := by
    intro d
    induction d with
    | zero =>
      intro i hd hu
      have hi : i < used.length := (List.getElem?_eq_some_iff.mp hu).1
      omega
    | succ d ih =>
      intro i hd hu
      rcases markLoop_origin g.nodes hvalid g.nodes.length used0 i hu with
        h1 | ⟨i2, op, a, b, hi2n, hii2, hu2, hnd2, hmem⟩
      · -- live because it is (the image of) an output
        rcases markOutputs_origin g.nodes.length o _ used0 hmo i h1 with
          h2 | h2
        · rw [List.getElem?_replicate] at h2
          split at h2
          · simp at h2
          · simp at h2
        · obtain ⟨k, hk⟩ := List.mem_iff_getElem?.mp h2
          obtain ⟨y, hy, hry⟩ := omap_idx _ _ _ ho k i hk
          obtain ⟨hux, hyeq⟩ := renum_some used i _ hry
          have hymem : y ∈ o1 := List.getElem?_mem hy
          have hmark := markOutputs_marks g1.nodes.length o1 _ u0'
            (by rw [List.length_replicate]) hmo' y hymem
          rw [← hyeq]
          exact markLoop_mono g1.nodes g1.nodes.length u0' y hmark
      · -- live because it is an operand of the later live `Op` at `i2`
        have hj2 := ih i2 (by omega) hu2
        have hk := keep_idx g.nodes used i2 hulen hu2
        rw [hnd2] at hk
        obtain ⟨nd1, hnd1, hrn⟩ :=
          omap_idx _ _ _ hn ((used.take i2).count true) _ hk
        have hcl := markLoop_closure g.nodes hvalid g.nodes.length used0
          (by omega) i2 op a b hi2n hu2 hnd2
        have hra : renum used a = some ((used.take a).count true) := by
          unfold renum
          rw [if_pos hcl.1]
        have hrb : renum used b = some ((used.take b).count true) := by
          unfold renum
          rw [if_pos hcl.2]
        simp only [renumNode, hra, hrb, Option.some.injEq] at hrn
        have hj2lt : (used.take i2).count true < g1.nodes.length := by
          rw [hn1eq]
          exact count_take_lt_total used i2 hu2
        rw [← hrn] at hnd1
        have hcl1 := markLoop_closure g1.nodes hvalid1 g1.nodes.length u0'
          (by omega) ((used.take i2).count true) op
          ((used.take a).count true) ((used.take b).count true)
          hj2lt hj2 hnd1
        rcases hmem with hmem | hmem
        · rw [← hmem]
          exact hcl1.1
        · rw [← hmem]
          exact hcl1.2
  have hall : ∀ j, j < used'.length → used'[j]? = some true := by
    intro j hj
    rw [hulen', hn1eq] at hj
    obtain ⟨i, hi, hu, hc⟩ := keep_surj used j hj
    rw [← hc]
    exact B g.nodes.length i (by omega) hu
  -- with everything live the second run is the identity
  have hkeep : keep g1.nodes used' = g1.nodes :=
    keep_all_true g1.nodes used' (by rw [hulen']) hall
  have hrenum_id : ∀ (y : Nat), y < g1.nodes.length →
      renum used' y = some y := by
    intro y hy
    unfold renum
    rw [if_pos (hall y (by omega))]
    rw [count_take_all_true used' hall y (by omega)]
  have homap1 : omap (renumNode used') (keep g1.nodes used') =
      some g1.nodes := by
    rw [hkeep]
    apply omap_of_forall
    intro nd hmem
    cases nd with
    | Input k => rfl
    | Constant c => rfl
    | Op op a b =>
      obtain ⟨j, hj⟩ := List.mem_iff_getElem?.mp hmem
      have hjlt : j < g1.nodes.length := (List.getElem?_eq_some_iff.mp hj).1
      obtain ⟨ha, hb⟩ := hvalid1 j op a b hj
      simp only [renumNode, hrenum_id a (by omega), hrenum_id b (by omega)]
  have homap2 : omap (renum used') o1 = some o1 := by
    apply omap_of_forall
    intro y hy
    exact hrenum_id y (hko y hy)
  unfold Graph.tree_shake
  rw [if_pos hvld1, hmo']
  show (match omap (renumNode used') (keep g1.nodes used'),
      omap (renum used') o1 with
    | some nodes1, some outputs1 =>
      some ({ g1 with nodes := nodes1 }, outputs1)
    | _, _ => none) = some (g1, o1)
  rw [homap1, homap2]

/-! ### Pointwise behaviour of the update loops -/

/-- Decompose a full update loop around position `i`: the state reaching
`i` still holds the original node there, and the result of the step at
`i` is what the final list holds there. -/
theorem stepLoop_at (f : List Node → Nat → Option (List Node))
    (hloc : ∀ ns k ns' (j : Nat), f ns k = some ns' → j ≠ k →
      ns'[j]? = ns[j]?)
    (nodes nodes' : List Node) (i : Nat)
    (h : stepLoop f 0 nodes.length nodes = some nodes')
    (hi : i < nodes.length) :
    ∃ ns0 ns1, stepLoop f 0 i nodes = some ns0 ∧ ns0[i]? = nodes[i]? ∧
      f ns0 i = some ns1 ∧ nodes'[i]? = ns1[i]? := by
  have hsplit := stepLoop_split f i (nodes.length - i) 0 nodes
  rw [Nat.add_sub_cancel' (Nat.le_of_lt hi)] at hsplit
  rw [hsplit] at h
  cases h0 : stepLoop f 0 i nodes with
  | none => rw [h0] at h; simp at h
  | some ns0 =>
    rw [h0] at h
    replace h : stepLoop f (0 + i) (nodes.length - i) ns0 = some nodes' := h
    rw [Nat.zero_add] at h
    have hfr0 : ns0[i]? = nodes[i]? :=
      stepLoop_frame f hloc i 0 nodes ns0 h0 i (by omega)
    cases hrest : nodes.length - i with
    | zero => omega
    | succ fl =>
      rw [hrest] at h
      replace h : (match f ns0 i with
          | some ns => stepLoop f (i + 1) fl ns
          | none => none) = some nodes' := h
      cases h1 : f ns0 i with
      | none => rw [h1] at h; simp at h
      | some ns1 =>
        rw [h1] at h
        replace h : stepLoop f (i + 1) fl ns1 = some nodes' := h
        exact ⟨ns0, ns1, rfl, hfr0, h1,
          stepLoop_frame f hloc fl (i + 1) ns1 nodes' h i (by omega)⟩

theorem propStep_loc (m : Nat) :
    ∀ ns k ns' (j : Nat), propStep m ns k = some ns' → j ≠ k →
      ns'[j]? = ns[j]? := by
  intro ns k ns' j hf hjk
  rcases propStep_shape m ns k ns' hf with h1 | ⟨v, h1⟩
  · rw [h1]
  · rw [h1, List.getElem?_set_ne (by omega)]

/-- `propStep` never rewrites a position currently holding a constant. -/
theorem propStep_keeps_constant (m : Nat) (ns ns' : List Node) (i j c : Nat)
    (hc : ns[j]? = some (Node.Constant c))
    (hf : propStep m ns i = some ns') :
    ns'[j]? = some (Node.Constant c) := by
  by_cases hji : j = i
  · subst hji
    unfold propStep at hf
    rw [hc] at hf
    have hf2 : some ns = some ns' := hf
    simp only [Option.some.injEq] at hf2
    rw [← hf2, hc]
  · rw [propStep_loc m ns i ns' j hf hji, hc]

/-- C5: constant-folding exactness of `propagate`.  A node
`Op(op, a, b)` whose two operand nodes are `Constant(va)` and
`Constant(vb)` becomes exactly `Constant(op.eval(va, vb, modulus))` —
no other value and no other variant. -/
theorem propagate_folds (g g' : Graph) (i : Nat) (op : Operation)
    (a b va vb : Nat)
    (h : g.propagate = some g')
    (hnd : g.nodes[i]? = some (Node.Op op a b))
    (ha : g.nodes[a]? = some (Node.Constant va))
    (hb : g.nodes[b]? = some (Node.Constant vb)) :
    ∃ w, op.eval va vb g.modulus = some w ∧
      g'.nodes[i]? = some (Node.Constant w) := by
  obtain ⟨hvld, hloop, hinp, hmod⟩ := propagate_inv g g' h
  have hi : i < g.nodes.length := (List.getElem?_eq_some_iff.mp hnd).1
  obtain ⟨ns0, ns1, h0, hfr0, h1, hfr1⟩ :=
    stepLoop_at (propStep g.modulus) (propStep_loc g.modulus)
      g.nodes g'.nodes i hloop hi
  have hca : ns0[a]? = some (Node.Constant va) := by
    have := stepLoop_inv (propStep g.modulus)
      (fun ns => ns[a]? = some (Node.Constant va))
      (fun ns k ns' hf hp => propStep_keeps_constant g.modulus ns ns' k a va hp hf)
      i 0 g.nodes ns0 h0 ha
    exact this
  have hcb : ns0[b]? = some (Node.Constant vb) := by
    have := stepLoop_inv (propStep g.modulus)
      (fun ns => ns[b]? = some (Node.Constant vb))
      (fun ns k ns' hf hp => propStep_keeps_constant g.modulus ns ns' k b vb hp hf)
      i 0 g.nodes ns0 h0 hb
    exact this
  have hlen0 : ns0.length = g.nodes.length :=
    stepLoop_length _ (propStep_shape g.modulus) i 0 g.nodes ns0 h0
  rw [hnd] at hfr0
  unfold propStep at h1
  rw [hfr0] at h1
  replace h1 : (match ns0[a]?, ns0[b]? with
      | some na, some nb =>
        match na, nb with
        | Node.Constant va2, Node.Constant vb2 =>
          match op.eval va2 vb2 g.modulus with
          | some w => some (ns0.set i (Node.Constant w))
          | none => none
        | _, _ =>
          if a = b then
            match tautFold op with
            | some c => some (ns0.set i (Node.Constant (cond c 1 0)))
            | none => some ns0
          else some ns0
      | _, _ => none) = some ns1 := h1
  rw [hca, hcb] at h1
  replace h1 : (match op.eval va vb g.modulus with
      | some w => some (ns0.set i (Node.Constant w))
      | none => none) = some ns1 := h1
  cases hev : op.eval va vb g.modulus with
  | none => rw [hev] at h1; simp at h1
  | some w =>
    rw [hev] at h1
    simp only [Option.some.injEq] at h1
    refine ⟨w, rfl, ?_⟩
    rw [hfr1, ← h1]
    exact List.getElem?_set_eq_of_lt _ (by omega)

/-- Tautology folding (`propagate`): an `Op(op, a, a)` whose operand node
is not a constant becomes `Constant 1` for `Eq`/`Leq`/`Geq` and
`Constant 0` for `Neq`/`Lt`/`Gt`. -/
theorem propagate_taut (g g' : Graph) (i : Nat) (op : Operation)
    (a : Nat) (c : Bool)
    (h : g.propagate = some g')
    (hnd : g.nodes[i]? = some (Node.Op op a a))
    (htf : tautFold op = some c) :
    g'.nodes[i]? = some (Node.Constant (cond c 1 0)) := by
  obtain ⟨hvld, hloop, hinp, hmod⟩ := propagate_inv g g' h
  have hvalid := (is_valid_iff g).mp hvld
  have hi : i < g.nodes.length := (List.getElem?_eq_some_iff.mp hnd).1
  have hai : a < i := (hvalid i op a a hnd).1
  obtain ⟨ns0, ns1, h0, hfr0, h1, hfr1⟩ :=
    stepLoop_at (propStep g.modulus) (propStep_loc g.modulus)
      g.nodes g'.nodes i hloop hi
  have hlen0 : ns0.length = g.nodes.length :=
    stepLoop_length _ (propStep_shape g.modulus) i 0 g.nodes ns0 h0
  rw [hnd] at hfr0
  unfold propStep at h1
  rw [hfr0] at h1
  replace h1 : (match ns0[a]?, ns0[a]? with
      | some na, some nb =>
        match na, nb with
        | Node.Constant va2, Node.Constant vb2 =>
          match op.eval va2 vb2 g.modulus with
          | some w => some (ns0.set i (Node.Constant w))
          | none => none
        | _, _ =>
          if a = a then
            match tautFold op with
            | some c => some (ns0.set i (Node.Constant (cond c 1 0)))
            | none => some ns0
          else some ns0
      | _, _ => none) = some ns1 := h1
  cases hna : ns0[a]? with
  | none =>
    rw [List.getElem?_eq_none_iff] at hna
    omega
  | some na =>
    rw [hna] at h1
    cases na with
    | Constant w =>
      replace h1 : (match op.eval w w g.modulus with
          | some v => some (ns0.set i (Node.Constant v))
          | none => none) = some ns1 := h1
      have hev : op.eval w w g.modulus = some (cond c 1 0) :=
        tautFold_eval op c w g.modulus htf
      rw [hev] at h1
      simp only [Option.some.injEq] at h1
      rw [hfr1, ← h1]
      exact List.getElem?_set_eq_of_lt _ (by omega)
    | Input k =>
      replace h1 : (if a = a then
          match tautFold op with
          | some c => some (ns0.set i (Node.Constant (cond c 1 0)))
          | none => some ns0
        else some ns0) = some ns1 := h1
      rw [if_pos rfl, htf] at h1
      simp only [Option.some.injEq] at h1
      rw [hfr1, ← h1]
      exact List.getElem?_set_eq_of_lt _ (by omega)
    | Op op2 a2 b2 =>
      replace h1 : (if a = a then
          match tautFold op with
          | some c => some (ns0.set i (Node.Constant (cond c 1 0)))
          | none => some ns0
        else some ns0) = some ns1 := h1
      rw [if_pos rfl, htf] at h1
      simp only [Option.some.injEq] at h1
      rw [hfr1, ← h1]
      exact List.getElem?_set_eq_of_lt _ (by omega)

/-! ### Remaining infrastructure for the claims -/

theorem vn_renum_le (s : List Nat) (x y : Nat)
    (hr : (s.map (fun w => s.findIdx (fun z => z == w)))[x]? = some y) :
    y ≤ x := by
  rw [List.getElem?_map] at hr
  cases hs : s[x]? with
  | none => rw [hs] at hr; simp at hr
  | some vx =>
    rw [hs] at hr
    simp only [Option.map_some', Option.some.injEq] at hr
    rw [← hr]
    exact findIdx_le_of_getElem _ s x vx hs (by simp)

/-- All `Constant` nodes hold reduced field values (`0 ≤ v < modulus`),
the well-formedness condition of the data model. -/
def constantsReduced (g : Graph) : Bool :=
  g.nodes.all (fun nd =>
    match nd with
    | .Constant c => decide (c < g.modulus)
    | _ => true)

theorem constantsReduced_spec (g : Graph) (h : constantsReduced g = true) :
    ∀ (j c : Nat), g.nodes[j]? = some (Node.Constant c) → c < g.modulus := by
  intro j c hj
  have hmem : Node.Constant c ∈ g.nodes := List.getElem?_mem hj
  have := List.all_eq_true.mp h _ hmem
  simpa using this

/-! ### Concrete instances used by the witnesses and counterexamples -/

def tapeZero : Tape := ⟨fun _ => 0, fun _ => 0⟩

def tapeOne : Tape := ⟨fun _ => 1, fun _ => 1⟩

def tapeTwo : Tape := ⟨fun _ => 2, fun _ => 2⟩

def tapeShift : Tape := ⟨fun i => i + 1, fun _ => 0⟩

/-- `x + x` of one input, a graph on which `optimize` is the identity. -/
def gAddSelf : Graph := ⟨[.Input 0, .Op .Add 0 0], [3], 7⟩

/-- A single input fed straight to the output. -/
def gSingleInput : Graph := ⟨[.Input 0], [5], 7⟩

/-- An `x - x` node over an out-of-range constant (`5 ≥ 3`). -/
def gSubConstant : Graph := ⟨[.Constant 5, .Op .Sub 0 0], [], 3⟩

/-- An `x - x` node over an input. -/
def gSubInput : Graph := ⟨[.Input 0, .Op .Sub 0 0], [], 7⟩

/-- An `x - x` node over an input, with modulus zero. -/
def gSubModZero : Graph := ⟨[.Input 0, .Op .Sub 0 0], [], 0⟩

/-- Two additions, one of them dead, and a product. -/
def gDead : Graph :=
  ⟨[.Input 0, .Input 1, .Op .Add 0 1, .Op .Add 0 1, .Op .Mul 2 3], [2, 3], 97⟩

/-- The live part of `gDead` for outputs `[2]`. -/
def gLive : Graph := ⟨[.Input 0, .Input 1, .Op .Add 0 1], [2, 3], 97⟩

/-- `gDead` after value numbering with pairwise distinct input samples. -/
def gMerged : Graph :=
  ⟨[.Input 0, .Input 1, .Op .Add 0 1, .Op .Add 0 1, .Op .Mul 2 2], [2, 3], 97⟩

/-- Constant folding input: `2 + 3` over constants. -/
def gFold : Graph := ⟨[.Constant 2, .Constant 3, .Op .Add 0 1], [], 7⟩

def gFolded : Graph := ⟨[.Constant 2, .Constant 3, .Constant 5], [], 7⟩

/-- Tautology folding input: `x == x` and `x < x` over an input. -/
def gTaut : Graph := ⟨[.Input 0, .Op .Eq 0 0, .Op .Lt 0 0], [], 7⟩

def gTautFolded : Graph := ⟨[.Input 0, .Constant 1, .Constant 0], [], 7⟩

/-! ### The claims -/

/-- C9: calling `Operation::eval` with the `MMul` variant reaches the
`unimplemented!` arm: a fatal, unrecoverable failure that never returns a
value, for every pair of operands and every modulus. -/
theorem mmul_eval_fatal :
    ∀ (a b m : Nat), Operation.eval Operation.MMul a b m = none :=
  fun _ _ _ => rfl

/-- C8: `Operation::eval` on `Shl`/`Shr` with right operand `b ≥ 256`
fails fatally on the shift-amount contract check and never returns a
value; for `b < 256` it shifts the left operand by the low machine word
(`b % 2^64`) of `b`. -/
theorem shift_contract (a b m : Nat) :
    (256 ≤ b →
      Operation.eval Operation.Shl a b m = none ∧
      Operation.eval Operation.Shr a b m = none) ∧
    (b < 256 →
      Operation.eval Operation.Shl a b m =
        some ((a <<< (b % 2 ^ 64)) % 2 ^ 256) ∧
      Operation.eval Operation.Shr a b m = some (a >>> (b % 2 ^ 64))) := by
  constructor
  · intro h
    have hb : ¬ b < 256 := by omega
    constructor
    · simp [Operation.eval, compute_shl_uint, hb]
    · simp [Operation.eval, compute_shr_uint, hb]
  · intro h
    constructor
    · simp [Operation.eval, compute_shl_uint, h]
    · simp [Operation.eval, compute_shr_uint, h]

theorem shift_contract_witness :
    ((256 ≤ 300 ∧
      Operation.eval Operation.Shl 1 300 7 = none ∧
      Operation.eval Operation.Shr 1 300 7 = none) ∧
     (2 < 256 ∧
      Operation.eval Operation.Shl 3 2 7 =
        some ((3 <<< (2 % 2 ^ 64)) % 2 ^ 256) ∧
      Operation.eval Operation.Shr 3 2 7 = some (3 >>> (2 % 2 ^ 64)))) :=
  ⟨⟨by decide, (shift_contract 1 300 7).1 (by decide)⟩,
   ⟨by decide, (shift_contract 3 2 7).2 (by decide)⟩⟩

/-- C7 counterexample: the claim that every `eval` result is reduced
below the modulus fails for `Shl` (`2 << 1 = 4 ≥ 3` with modulus `3`),
and for the comparison operators when the modulus is `1`. -/
theorem eval_not_reduced_counterexample :
    (2 < 3 ∧ 1 < 3 ∧ Operation.eval Operation.Shl 2 1 3 = some 4 ∧
      ¬ (4 < 3)) ∧
    (0 < 1 ∧ Operation.eval Operation.Eq 0 0 1 = some 1 ∧ ¬ (1 < 1)) := by
  constructor
  · refine ⟨by decide, by decide, ?_, by decide⟩
    simp [Operation.eval, compute_shl_uint]
  · exact ⟨by decide, by decide, by decide⟩

/-- C7 (amended): for every supported operator other than `Shl` (whose
truncated-shift result is not reduced), with a modulus of at least `2`
and reduced operands, any value `Operation::eval` returns is strictly
below the modulus. -/
theorem eval_reduced_mod (op : Operation) (a b m v : Nat)
    (hop : op ≠ Operation.Shl) (hm : 2 ≤ m) (ha : a < m) (hb : b < m)
    (hev : op.eval a b m = some v) : v < m := by
  have hmz : ¬ m = 0 := by omega
  cases op with
  | Add =>
    simp only [Operation.eval, Option.some.injEq] at hev
    rw [← hev]
    simp only [addMod, hmz, if_neg]
    exact Nat.mod_lt _ (by omega)
  | Sub =>
    simp only [Operation.eval, usub, Nat.le_of_lt hb, if_pos] at hev
    simp only [Option.some.injEq] at hev
    rw [← hev]
    simp only [addMod, hmz, if_neg]
    exact Nat.mod_lt _ (by omega)
  | Mul =>
    simp only [Operation.eval, Option.some.injEq] at hev
    rw [← hev]
    simp only [mulMod, hmz, if_neg]
    exact Nat.mod_lt _ (by omega)
  | MMul => simp [Operation.eval] at hev
  | Eq =>
    simp only [Operation.eval, Option.some.injEq] at hev
    split at hev <;> omega
  | Neq =>
    simp only [Operation.eval, Option.some.injEq] at hev
    split at hev <;> omega
  | Lt =>
    simp only [Operation.eval, Option.some.injEq] at hev
    split at hev <;> omega
  | Gt =>
    simp only [Operation.eval, Option.some.injEq] at hev
    split at hev <;> omega
  | Leq =>
    simp only [Operation.eval, Option.some.injEq] at hev
    split at hev <;> omega
  | Geq =>
    simp only [Operation.eval, Option.some.injEq] at hev
    split at hev <;> omega
  | Lor =>
    simp only [Operation.eval, Option.some.injEq] at hev
    split at hev <;> omega
  | Shl => exact absurd rfl hop
  | Shr =>
    simp only [Operation.eval, compute_shr_uint] at hev
    split at hev
    · simp only [Option.some.injEq] at hev
      rw [← hev, Nat.shiftRight_eq_div_pow]
      exact Nat.lt_of_le_of_lt (Nat.div_le_self _ _) ha
    · simp at hev
  | Band =>
    simp only [Operation.eval, Option.some.injEq] at hev
    rw [← hev]
    exact Nat.lt_of_le_of_lt Nat.and_le_left ha

theorem eval_reduced_mod_witness :
    (Operation.Add ≠ Operation.Shl ∧ 2 ≤ 3 ∧ 2 < 3 ∧ 2 < 3 ∧
      Operation.eval Operation.Add 2 2 3 = some 1) ∧ 1 < 3 :=
  ⟨⟨by decide, by decide, by decide, by decide, by decide⟩,
   eval_reduced_mod Operation.Add 2 2 3 1 (by decide) (by decide)
     (by decide) (by decide) (by decide)⟩

/-- C2: if the back-reference invariant holds on entry, it still holds
after each individual pass (`tree_shake`, `propagate`,
`value_numbering`, `constants`) and after the full `optimize`
pipeline. -/
theorem passes_preserve_is_valid (g g1 g2 g3 g4 g5 : Graph)
    (o o1 o3 o5 : List Nat) (t t1 t2 : Tape)
    (_hvld : g.is_valid = true)
    (h1 : g.tree_shake o = some (g1, o1))
    (h2 : g.propagate = some g2)
    (h3 : g.value_numbering o t = some (g3, o3))
    (h4 : g.constants t1 t2 = some g4)
    (h5 : g.optimize o t t1 t2 = some (g5, o5)) :
    g1.is_valid = true ∧ g2.is_valid = true ∧ g3.is_valid = true ∧
    g4.is_valid = true ∧ g5.is_valid = true :=
  ⟨shake_valid g o g1 o1 h1, propagate_valid g g2 h2,
   value_numbering_valid g o t g3 o3 h3, constants_valid g t1 t2 g4 h4,
   optimize_valid g o t t1 t2 g5 o5 h5⟩

theorem passes_preserve_is_valid_witness :
    gAddSelf.is_valid = true ∧ gAddSelf.is_valid = true ∧
    gAddSelf.is_valid = true ∧ gAddSelf.is_valid = true ∧
    gAddSelf.is_valid = true :=
  passes_preserve_is_valid gAddSelf gAddSelf gAddSelf gAddSelf gAddSelf
    gAddSelf [1] [1] [1] [1] tapeOne tapeOne tapeTwo (by decide) (by decide)
    (by decide) (by decide) (by decide) (by decide)

/-- C3 counterexample: on the (back-reference-)valid graph
`[Constant 5, Op(Sub, 0, 0)]` with modulus `3`, the constant `5` exceeds
the modulus, `modulus - b` overflows inside `Sub`, and the `constants`
pass fails fatally instead of rewriting the node to `Constant 0`; with a
zero modulus the sampling `% modulus` fails instead. -/
theorem constants_sub_self_overflow :
    (gSubConstant.is_valid = true ∧
     gSubConstant.nodes[1]? = some (Node.Op Operation.Sub 0 0) ∧
     gSubConstant.constants tapeZero tapeZero = none) ∧
    (gSubModZero.is_valid = true ∧
     gSubModZero.nodes[1]? = some (Node.Op Operation.Sub 0 0) ∧
     gSubModZero.constants tapeZero tapeZero = none) :=
  ⟨⟨by decide, by decide, by decide⟩, ⟨by decide, by decide, by decide⟩⟩

/-- C3 (amended): on a valid graph with a positive modulus whose
`Constant` nodes are all reduced below the modulus, the probabilistic
`constants` pass succeeds and rewrites every `Op(Sub, x, x)` node to
`Constant 0`, deterministically, for every outcome of the random draws
of its two evaluation trials. -/
theorem constants_folds_sub_self (g : Graph) (t1 t2 : Tape) (i x : Nat)
    (hvld : g.is_valid = true) (hm : 0 < g.modulus)
    (hred : constantsReduced g = true)
    (hnd : g.nodes[i]? = some (Node.Op Operation.Sub x x)) :
    ∃ g', g.constants t1 t2 = some g' ∧
      g'.nodes[i]? = some (Node.Constant 0) :=
  constants_sub_self g t1 t2 i x hvld hm (constantsReduced_spec g hred) hnd

theorem constants_folds_sub_self_witness :
    gSubInput.is_valid = true ∧ 0 < gSubInput.modulus ∧
    constantsReduced gSubInput = true ∧
    gSubInput.nodes[1]? = some (Node.Op Operation.Sub 0 0) ∧
    ∃ g', gSubInput.constants tapeOne tapeTwo = some g' ∧
      g'.nodes[1]? = some (Node.Constant 0) :=
  ⟨by decide, by decide, by decide, by decide,
   constants_folds_sub_self gSubInput tapeOne tapeTwo 1 0 (by decide)
     (by decide) (by decide) (by decide)⟩

theorem tree_shake_idempotent_witness :
    gDead.tree_shake [2] = some (gLive, [2]) ∧
    gLive.tree_shake [2] = some (gLive, [2]) :=
  ⟨by decide, tree_shake_idempotent gDead gLive [2] [2] (by decide)⟩

theorem propagate_folds_witness :
    gFold.propagate = some gFolded ∧
    ∃ w, Operation.eval Operation.Add 2 3 gFold.modulus = some w ∧
      gFolded.nodes[2]? = some (Node.Constant w) :=
  ⟨by decide, propagate_folds gFold gFolded 2 Operation.Add 0 1 2 3
    (by decide) (by decide) (by decide) (by decide)⟩

/-- C6: after `propagate`, a node `Op(op, a, a)` whose operand node is
not a constant becomes `Constant 1` when `op` is `Eq`, `Leq` or `Geq`,
and `Constant 0` when `op` is `Neq`, `Lt` or `Gt`, for every operand
value. -/
theorem propagate_tautology (g g' : Graph) (i : Nat) (op : Operation)
    (a : Nat)
    (h : g.propagate = some g')
    (hnd : g.nodes[i]? = some (Node.Op op a a))
    (_hnc : ∀ (c : Nat), g.nodes[a]? ≠ some (Node.Constant c)) :
    ((op = Operation.Eq ∨ op = Operation.Leq ∨ op = Operation.Geq) →
      g'.nodes[i]? = some (Node.Constant 1)) ∧
    ((op = Operation.Neq ∨ op = Operation.Lt ∨ op = Operation.Gt) →
      g'.nodes[i]? = some (Node.Constant 0)) := by
  constructor
  · intro hop
    have h1 : g'.nodes[i]? = some (Node.Constant (cond true 1 0)) := by
      rcases hop with h1 | h1 | h1 <;> subst h1 <;>
        exact propagate_taut g g' i _ a true h hnd rfl
    simpa using h1
  · intro hop
    have h1 : g'.nodes[i]? = some (Node.Constant (cond false 1 0)) := by
      rcases hop with h1 | h1 | h1 <;> subst h1 <;>
        exact propagate_taut g g' i _ a false h hnd rfl
    simpa using h1

theorem propagate_tautology_witness :
    gTaut.propagate = some gTautFolded ∧
    gTautFolded.nodes[1]? = some (Node.Constant 1) ∧
    gTautFolded.nodes[2]? = some (Node.Constant 0) :=
  ⟨by decide,
   (propagate_tautology gTaut gTautFolded 1 Operation.Eq 0 (by decide)
     (by decide) (fun c hc => by simp [gTaut] at hc)).1 (Or.inl rfl),
   (propagate_tautology gTaut gTautFolded 2 Operation.Lt 0 (by decide)
     (by decide) (fun c hc => by simp [gTaut] at hc)).2
     (Or.inr (Or.inl rfl))⟩

/-- C10: `value_numbering` never adds or removes nodes and never changes
a node's variant: lengths are equal, `Constant` and `Input` payloads and
`Op` operators are kept, and only `Op` operand indices and `outputs`
entries are rewritten, each to an index no greater than the one it
replaces. -/
theorem value_numbering_frame (g : Graph) (o : List Nat) (t : Tape)
    (g' : Graph) (o' : List Nat)
    (h : g.value_numbering o t = some (g', o')) :
    g'.nodes.length = g.nodes.length ∧
    (∀ (i k : Nat), g.nodes[i]? = some (Node.Input k) →
      g'.nodes[i]? = some (Node.Input k)) ∧
    (∀ (i c : Nat), g.nodes[i]? = some (Node.Constant c) →
      g'.nodes[i]? = some (Node.Constant c)) ∧
    (∀ (i : Nat) (op : Operation) (a b : Nat),
      g.nodes[i]? = some (Node.Op op a b) →
      ∃ a2 b2, g'.nodes[i]? = some (Node.Op op a2 b2) ∧ a2 ≤ a ∧ b2 ≤ b) ∧
    o'.length = o.length ∧
    (∀ (k x : Nat), o[k]? = some x → ∃ y, o'[k]? = some y ∧ y ≤ x) := by
  obtain ⟨hvld, values, hval, hn, ho, hinp, hmod⟩ :=
    value_numbering_inv g o t g' o' h
  refine ⟨omap_length _ _ _ hn, ?_, ?_, ?_, omap_length _ _ _ ho, ?_⟩
  · intro i k hi
    obtain ⟨nd1, hnd1, hrn⟩ := omap_idx _ _ _ hn i _ hi
    have hrn2 : some (Node.Input k) = some nd1 := hrn
    rw [hnd1, ← hrn2]
  · intro i c hi
    obtain ⟨nd1, hnd1, hrn⟩ := omap_idx _ _ _ hn i _ hi
    have hrn2 : some (Node.Constant c) = some nd1 := hrn
    rw [hnd1, ← hrn2]
  · intro i op a b hi
    obtain ⟨nd1, hnd1, hrn⟩ := omap_idx _ _ _ hn i _ hi
    have hrn2 : (match
        (values.map (fun v => values.findIdx (fun x => x == v)))[a]?,
        (values.map (fun v => values.findIdx (fun x => x == v)))[b]? with
      | some a1, some b1 => some (Node.Op op a1 b1)
      | _, _ => none) = some nd1 := hrn
    cases hra : (values.map (fun v => values.findIdx (fun x => x == v)))[a]? with
    | none => rw [hra] at hrn2; simp at hrn2
    | some a2 =>
      cases hrb : (values.map (fun v => values.findIdx (fun x => x == v)))[b]? with
      | none => rw [hra, hrb] at hrn2; simp at hrn2
      | some b2 =>
        rw [hra, hrb] at hrn2
        simp only [Option.some.injEq] at hrn2
        refine ⟨a2, b2, ?_, vn_renum_le values a a2 hra,
          vn_renum_le values b b2 hrb⟩
        rw [hnd1, ← hrn2]
  · intro k x hx
    obtain ⟨y, hy, hry⟩ := omap_idx _ _ _ ho k x hx
    exact ⟨y, hy, vn_renum_le values x y hry⟩

theorem value_numbering_frame_witness :
    gMerged.nodes.length = gDead.nodes.length ∧
    (∀ (i k : Nat), gDead.nodes[i]? = some (Node.Input k) →
      gMerged.nodes[i]? = some (Node.Input k)) ∧
    (∀ (i c : Nat), gDead.nodes[i]? = some (Node.Constant c) →
      gMerged.nodes[i]? = some (Node.Constant c)) ∧
    (∀ (i : Nat) (op : Operation) (a b : Nat),
      gDead.nodes[i]? = some (Node.Op op a b) →
      ∃ a2 b2, gMerged.nodes[i]? = some (Node.Op op a2 b2) ∧
        a2 ≤ a ∧ b2 ≤ b) ∧
    ([4] : List Nat).length = ([4] : List Nat).length ∧
    (∀ (k x : Nat), ([4] : List Nat)[k]? = some x →
      ∃ y, ([4] : List Nat)[k]? = some y ∧ y ≤ x) :=
  value_numbering_frame gDead [4] tapeShift gMerged [4] (by decide)

/-- C1 counterexample: semantic preservation of `optimize` fails as
stated.  On the valid graph `[Input 0]` with output list `[0]` and input
`5`, a random-draw outcome in which both `constants` trials sample the
input as `0` rewrites the input node to `Constant 0`: the original graph
evaluates to `5` at output `0`, the optimized one to `0`. -/
theorem optimize_unsound_collision :
    gSingleInput.is_valid = true ∧
    (∀ x ∈ ([0] : List Nat), x < gSingleInput.nodes.length) ∧
    gSingleInput.evaluate = some [5] ∧
    gSingleInput.optimize [0] tapeZero tapeZero tapeZero =
      some (⟨[Node.Constant 0], [5], 7⟩, [0]) ∧
    (⟨[Node.Constant 0], [5], 7⟩ : Graph).evaluate = some [0] ∧
    (5 : Nat) ≠ 0 :=
  ⟨by decide, by decide, by decide, by decide, by decide, by decide⟩

/-- C1 (amended): semantic preservation of the `optimize` pipeline holds
for every outcome of the random draws that is *faithful*: whenever the
`value_numbering` sample agrees on two positions their true values agree
(`H2`), and whenever the two `constants` trials agree on a position the
true value equals the sample (`H3`).  Then, for every valid graph,
in-range output list and input assignment, evaluating the graph at the
indices in `outputs` yields the same field values as evaluating the
optimized graph at the rewritten entries. -/
theorem optimize_preserves_outputs
    (g g1 g2 g3 g4 g5 : Graph) (o o1 o3 o5 : List Nat) (t t1 t2 : Tape)
    (v v2 s2 v3 sa sb : List Nat)
    (hvld : g.is_valid = true)
    (hv : g.evaluate = some v)
    (h1 : g.tree_shake o = some (g1, o1))
    (h2 : g1.propagate = some g2)
    (hv2 : g2.evaluate = some v2)
    (hs2 : randomEval g2 t = some s2)
    (H2 : ∀ (i j : Nat), i < s2.length → j < s2.length →
      s2[i]? = s2[j]? → v2[i]? = v2[j]?)
    (h3 : g2.value_numbering o1 t = some (g3, o3))
    (hv3 : g3.evaluate = some v3)
    (hsa : randomEval g3 t1 = some sa)
    (hsb : randomEval g3 t2 = some sb)
    (H3 : ∀ (k : Nat), k < sa.length → sa[k]? = sb[k]? → v3[k]? = sa[k]?)
    (h4 : g3.constants t1 t2 = some g4)
    (h5 : g.optimize o t t1 t2 = some (g5, o5)) :
    ∃ v5, g5.evaluate = some v5 ∧ o5.length = o.length ∧
      ∀ (k x y : Nat), o[k]? = some x → o5[k]? = some y →
        v5[y]? = v[x]? := by
  obtain ⟨g1', o1', g2', g3', o3', g4', k1, k2, k3, k4, k5⟩ :=
    optimize_inv g o t t1 t2 g5 o5 h5
  rw [h1] at k1
  simp only [Option.some.injEq, Prod.mk.injEq] at k1
  obtain ⟨e1, e2⟩ := k1
  subst e1
  subst e2
  rw [h2] at k2
  simp only [Option.some.injEq] at k2
  subst k2
  rw [h3] at k3
  simp only [Option.some.injEq, Prod.mk.injEq] at k3
  obtain ⟨e3, e4⟩ := k3
  subst e3
  subst e4
  rw [h4] at k4
  simp only [Option.some.injEq] at k4
  subst k4
  rw [Graph.evaluate, if_pos hvld] at hv
  have hvld2 : g2.is_valid = true := propagate_valid g1 g2 h2
  rw [Graph.evaluate, if_pos hvld2] at hv2
  have hvld3 : g3.is_valid = true := value_numbering_valid g2 o1 t g3 o3 h3
  rw [Graph.evaluate, if_pos hvld3] at hv3
  obtain ⟨v1, hev1, hlen1, hout1⟩ := shake_preserves g g1 o o1 v h1 hv
  have hev2 := propagate_preserves g1 g2 v1 h2 hev1
  rw [hv2] at hev2
  simp only [Option.some.injEq] at hev2
  have hv21 : v2 = v1 := hev2
  obtain ⟨hev3, hlen3, hout3⟩ :=
    value_numbering_preserves g2 g3 o1 o3 t v2 s2 h3 hv2 hs2 H2
  rw [hv3] at hev3
  simp only [Option.some.injEq] at hev3
  have hv32 : v3 = v2 := hev3
  have hc := constants_preserves g3 g4 t1 t2 v3 sa sb h4 hv3 hsa hsb H3
  obtain ⟨v5, hev5, hlen5, hout5⟩ := shake_preserves g4 g5 o3 o5 v3 k5 hc
  refine ⟨v5, ?_, by omega, ?_⟩
  · rw [Graph.evaluate, if_pos (shake_valid g4 o3 g5 o5 k5)]
    exact hev5
  · intro k x y hx hy
    have hk : k < o.length := (List.getElem?_eq_some_iff.mp hx).1
    cases hx1 : o1[k]? with
    | none =>
      rw [List.getElem?_eq_none_iff] at hx1
      omega
    | some x1 =>
      cases hx3 : o3[k]? with
      | none =>
        rw [List.getElem?_eq_none_iff] at hx3
        omega
      | some x3 =>
        calc v5[y]? = v3[x3]? := hout5 k x3 y hx3 hy
          _ = v2[x3]? := by rw [hv32]
          _ = v2[x1]? := hout3 k x1 x3 hx1 hx3
          _ = v1[x1]? := by rw [hv21]
          _ = v[x]? := hout1 k x x1 hx hx1

theorem optimize_preserves_outputs_witness :
    ∃ v5, gAddSelf.evaluate = some v5 ∧
      ([1] : List Nat).length = ([1] : List Nat).length ∧
      ∀ (k x y : Nat), ([1] : List Nat)[k]? = some x →
        ([1] : List Nat)[k]? = some y →
        v5[y]? = ([3, 6] : List Nat)[x]? :=
  optimize_preserves_outputs gAddSelf gAddSelf gAddSelf gAddSelf gAddSelf
    gAddSelf [1] [1] [1] [1] tapeOne tapeOne tapeTwo
    [3, 6] [3, 6] [1, 2] [3, 6] [1, 2] [2, 4]
    (by decide) (by decide) (by decide) (by decide) (by decide) (by decide)
    (by
      intro i j hi hj
      simp only [List.length_cons, List.length_nil] at hi hj
      interval_cases i <;> interval_cases j <;> decide)
    (by decide) (by decide) (by decide) (by decide)
    (by
      intro k hk
      simp only [List.length_cons, List.length_nil] at hk
      interval_cases k <;> decide)
    (by decide) (by decide)

end CircomScotia
